import Mathlib

/-!
Verification development for the `eonix` ECS runtime.

This file shallowly embeds the storage layer (`src/table.rs`, `src/components.rs`,
`src/entity.rs`), the borrow cell (`src/cells/ref_cell.rs`), the query layer
(`src/query.rs`, `src/filter.rs`) and the scheduler planner
(`src/schedule/builder.rs`, `src/schedule/mod.rs`, `src/system.rs`) as executable
Lean definitions, and proves or refutes the specification claims about them.

Machine integers are modelled as `Nat` with explicit `% 2^w` where the source
wraps.  Rust operations that can panic (`unwrap`, `expect`, `Vec::insert` /
`Vec::swap_remove` out of range, `unreachable!`, `get_disjoint_mut` failure)
are modelled with `Option`, `none` standing for the panic.  Silent no-op early
returns of the source are `some` of the unchanged state, so that panics and
intentional no-ops stay distinguishable.

Component kinds (Rust `TypeId`s) are modelled as `Nat`.
-/

set_option maxRecDepth 8192

namespace Eonix

/-- 2^32, the modulus of the `u32` arithmetic in `entity.rs`. -/
def u32Mod : Nat := 2 ^ 32

/-- 2^64, the modulus of the `u64` arithmetic in `table.rs`. -/
def u64Mod : Nat := 2 ^ 64

/-- `Generation::INVALID` (`entity.rs`): the high bit of the 32-bit word. -/
def genInvalidFlag : Nat := 2 ^ 31

/-- `Generation` (`entity.rs`): a `u32` whose high bit flags "not in use". -/
abbrev Generation := Nat

namespace Generation

/-- `Generation::new` -/
def new : Generation := 0

/-- `Generation::invalid` -/
def invalid : Generation := genInvalidFlag

/-- `Generation::set_invalid`: or the flag in. -/
def setInvalid (g : Generation) : Generation := g ||| genInvalidFlag

/-- `Generation::set_valid`: mask the flag out. -/
def setValid (g : Generation) : Generation := g &&& (genInvalidFlag - 1)

/-- `Generation::is_invalid` -/
def isInvalid (g : Generation) : Bool := g &&& genInvalidFlag != 0

/-- `Generation::inc`: increment, wrapping past the flag back to zero. -/
def inc (g : Generation) : Generation :=
  let g' := (g + 1) % u32Mod
  if isInvalid g' then 0 else g'

end Generation

/-- `Entity` (`entity.rs`): a position (`u32`) plus a generation. -/
structure Entity where
  position : Nat
  generation : Generation
deriving DecidableEq, Repr

/-- `Entity::id`: the position as an index. -/
def Entity.id (e : Entity) : Nat := e.position

/-- `EntitySpawner` (`entity.rs`): a monotone counter plus a FIFO free list
(the crossbeam channel delivers in send order). -/
structure EntitySpawner where
  counter : Nat
  freeList : List Entity
deriving DecidableEq, Repr

namespace EntitySpawner

/-- `EntitySpawner::new` -/
def new : EntitySpawner := ⟨0, []⟩

/-- `EntitySpawner::reserve`: pop the free list (revalidate and bump the
generation), else hand out the next fresh position. -/
def reserve (s : EntitySpawner) : EntitySpawner × Entity :=
  match s.freeList with
  | e :: rest =>
      (⟨s.counter, rest⟩, ⟨e.position, Generation.inc (Generation.setValid e.generation)⟩)
  | [] =>
      (⟨s.counter + 1, []⟩, ⟨s.counter % u32Mod, Generation.new⟩)

/-- `EntitySpawner::free`: invalidate the generation and enqueue. -/
def free (s : EntitySpawner) (e : Entity) : EntitySpawner :=
  ⟨s.counter, s.freeList ++ [⟨e.position, Generation.setInvalid e.generation⟩]⟩

end EntitySpawner

/-- `TableId` (`table.rs`): a pair of `u64` fields (`sum`, `xorField`). -/
structure TableId where
  sum : Nat
  xorField : Nat
deriving DecidableEq, Repr

namespace TableId

/-- `TableId::invalid`: the reserved all-zero id. -/
def invalid : TableId := ⟨0, 0⟩

/-- `TableId::is_invalid` -/
def isInvalid (t : TableId) : Bool := t.sum == 0 && t.xorField == 0

end TableId

/-- Stand-in for `rustc_hash::FxHasher` hashing a `TypeId` (an external crate,
not part of `src/`).  Modelled from the spec: the id is "derived from the set
of component-kind hashes"; the design assumes the per-kind hashes are
collision free, which this concrete function realises for kinds below 64. -/
def hashK (k : Nat) : Nat := 2 ^ (k % 64)

/-- `TableIdBuilder::CLEAR_MASK` (`table.rs`). -/
def clearMask : Nat := 0xFFFFFFFFFFFFFF00

/-- `TableIdBuilder` (`table.rs`). -/
structure TableIdBuilder where
  xorAcc : Nat
  sumAcc : Nat
  cnt : Nat
deriving DecidableEq, Repr

namespace TableIdBuilder

/-- `TableIdBuilder::new` -/
def new : TableIdBuilder := ⟨0, 0, 0⟩

/-- `TableIdBuilder::add_unqiue`: or the hash in, wrapping-add it, bump the
`u8` counter. -/
def addUnique (b : TableIdBuilder) (k : Nat) : TableIdBuilder :=
  ⟨b.xorAcc ||| hashK k, (b.sumAcc + hashK k) % u64Mod, (b.cnt + 1) % 256⟩

/-- `TableIdBuilder::finish`: clear the low 8 bits of the or-accumulator and
overwrite them with the kind count. -/
def finish (b : TableIdBuilder) : TableId :=
  ⟨b.sumAcc, (b.xorAcc &&& clearMask) ||| b.cnt⟩

end TableIdBuilder

/-- `TableId::from_uniques` over a list of kinds (the iterator order). -/
def tableIdFromList (l : List Nat) : TableId :=
  (l.foldl TableIdBuilder.addUnique TableIdBuilder.new).finish

/-- `Row` (`table.rs`): one column, a type tag plus the value vector.
Component values are modelled as `Nat`. -/
structure Row where
  tid : Nat
  data : List Nat
deriving DecidableEq, Repr

/-- `Vec::insert` semantics: shift the tail right.  Total for `i ≤ length`. -/
def listInsertAt (l : List Nat) (i : Nat) (a : Nat) : List Nat :=
  l.take i ++ a :: l.drop i

/-- `Vec::swap_remove` semantics: move the last element into slot `i`, then
drop the last slot.  Caller guarantees `i < length`. -/
def listSwapRemoveAt (l : List α) (i : Nat) : List α :=
  match l.getLast? with
  | none => []
  | some a => (l.set i a).dropLast

namespace Row

/-- `Row::new::<C>`: an empty column for one kind. -/
def new (k : Nat) : Row := ⟨k, []⟩

/-- `Row::clone_empty` (the vtable entry is `Row::new::<C>`). -/
def cloneEmpty (r : Row) : Row := ⟨r.tid, []⟩

/-- `Row::push` -/
def push (r : Row) (v : Nat) : Row := ⟨r.tid, r.data ++ [v]⟩

/-- `Row::update`: the source calls `Vec::insert(position, component)`, which
inserts (shifting the tail) rather than overwriting; `Vec::insert` panics when
`position > len` (modelled as `none`). -/
def update (r : Row) (pos : Nat) (v : Nat) : Option Row :=
  if pos ≤ r.data.length then some ⟨r.tid, listInsertAt r.data pos v⟩ else none

/-- `Row::push_or_update`: overwrite the existing slot, else append. -/
def pushOrUpdate (r : Row) (pos : Nat) (v : Nat) : Row :=
  if pos < r.data.length then ⟨r.tid, r.data.set pos v⟩ else ⟨r.tid, r.data ++ [v]⟩

/-- `Row::swap_remove` (`Vec::swap_remove` panics when out of range). -/
def swapRemove (r : Row) (pos : Nat) : Option Row :=
  if pos < r.data.length then some ⟨r.tid, listSwapRemoveAt r.data pos⟩ else none

/-- `Row::v_move_entity`: swap-remove from `self`, push onto `dst`. -/
def moveEntity (r : Row) (dst : Row) (pos : Nat) : Option (Row × Row) :=
  match r.data[pos]? with
  | none => none
  | some v => do
      let r' ← r.swapRemove pos
      some (r', dst.push v)

end Row

/-- A `ComponentSet` value: the compile-time tuple of (kind, value) pairs. -/
abbrev CompSet := List (Nat × Nat)

namespace CompSet

/-- `ComponentSet::types` -/
def types (c : CompSet) : List Nat := c.map Prod.fst

/-- `ComponentSet::contains_type` -/
def containsType (c : CompSet) (k : Nat) : Bool := (types c).contains k

end CompSet

/-- `Table` (`table.rs`). -/
structure Table where
  id : TableId
  rows : List Row
  entities : List Entity
deriving DecidableEq, Repr

namespace Table

/-- The kind list of a table (`Table::types`). -/
def kinds (t : Table) : List Nat := t.rows.map Row.tid

/-- `Table::new::<C>`: one fresh empty row per kind of `C`, in order. -/
def new (ks : List Nat) : Table :=
  ⟨tableIdFromList ks, ks.map Row.new, []⟩

/-- `Table::len` -/
def len (t : Table) : Nat := t.entities.length

/-- `Table::is_empty` -/
def isEmpty (t : Table) : Bool := t.len == 0

/-- `Table::get_entity_position`: the `expect` panic is `none`. -/
def entityPos (t : Table) (e : Entity) : Option Nat :=
  t.entities.findIdx? (fun x => x == e)

/-- `Table::contains_all` -/
def containsAll (t : Table) (ks : List Nat) : Bool :=
  ks.all (fun k => t.rows.any (fun r => r.tid == k))

/-- Find the index of the first row of a kind (`iter().find` by `tid`). -/
def rowIdx (t : Table) (k : Nat) : Option Nat :=
  t.rows.findIdx? (fun r => r.tid == k)

/-- Apply `f` to the first row whose kind is `k`; `none` when the row is
missing (the source's `unwrap!(iter().find(...))`) or when `f` panics. -/
def withRow (t : Table) (k : Nat) (f : Row → Option Row) : Option Table := do
  let i ← t.rowIdx k
  let r ← t.rows[i]?
  let r' ← f r
  some { t with rows := t.rows.set i r' }

end Table

namespace CompSet

/-- `ComponentSet::push_to_table` (`macros.rs` / `trait_impl.rs`): push every
value onto its row, then push the entity. -/
def pushToTable (c : CompSet) (t : Table) (e : Entity) : Option Table := do
  let t' ← c.foldlM (fun acc kv => acc.withRow kv.1 (fun r => some (r.push kv.2))) t
  some { t' with entities := t'.entities ++ [e] }

/-- `ComponentSet::update_rows`: `Row::update` on every named row. -/
def updateRows (c : CompSet) (t : Table) (pos : Nat) : Option Table :=
  c.foldlM (fun acc kv => acc.withRow kv.1 (fun r => r.update pos kv.2)) t

/-- `ComponentSet::push_or_update`: `Row::push_or_update` on every named row. -/
def pushOrUpdateRows (c : CompSet) (t : Table) (pos : Nat) : Option Table :=
  c.foldlM (fun acc kv => acc.withRow kv.1 (fun r => some (r.pushOrUpdate pos kv.2))) t

end CompSet

namespace Table

/-- `Table::update`: overwrite (sic) the components of an existing entity. -/
def update (t : Table) (e : Entity) (c : CompSet) : Option Table := do
  let pos ← t.entityPos e
  CompSet.updateRows c t pos

/-- `Table::update_partial` -/
def updatePartial (t : Table) (e : Entity) (c : CompSet) : Option Table := do
  let pos ← t.entityPos e
  CompSet.updateRows c t pos

/-- `Table::push` -/
def push (t : Table) (e : Entity) (c : CompSet) : Option Table :=
  CompSet.pushToTable c t e

/-- `Table::delete_entity`: swap-remove the slot from every row and from the
entity vector. -/
def deleteEntity (t : Table) (e : Entity) : Option Table := do
  let pos ← t.entityPos e
  let rows' ← t.rows.mapM (fun r => r.swapRemove pos)
  if pos < t.entities.length then
    some ⟨t.id, rows', listSwapRemoveAt t.entities pos⟩
  else none

/-- `Table::push_missing_or_update` -/
def pushMissingOrUpdate (t : Table) (e : Entity) (c : CompSet) : Option Table := do
  let pos ← t.entityPos e
  CompSet.pushOrUpdateRows c t pos

/-- One step of the `move_entity_up` / `move_entity_down` loops: move the slot
of `src` row `r` into the same-kind row of `dst`.  `dropMissing` selects the
`move_entity_down` behaviour (drop the value when `dst` lacks the kind);
otherwise a missing kind is the source's `unreachable!` panic. -/
def moveRowsStep (dropMissing : Bool) (pos : Nat) (acc : List Row × Table)
    (r : Row) : Option (List Row × Table) :=
  match acc.2.rowIdx r.tid with
  | some j => do
      let dr ← acc.2.rows[j]?
      let (r', dr') ← r.moveEntity dr pos
      some (acc.1 ++ [r'], { acc.2 with rows := acc.2.rows.set j dr' })
  | none =>
      if dropMissing then do
        let r' ← r.swapRemove pos
        some (acc.1 ++ [r'], acc.2)
      else none

/-- `Table::move_entity_up`: move every row slot to `dst` (which must contain
every kind of `self`), then move the entity handle. -/
def moveEntityUp (t : Table) (dst : Table) (e : Entity) : Option (Table × Table) := do
  let pos ← t.entityPos e
  let (rows', dst') ← t.rows.foldlM (moveRowsStep false pos) (([] : List Row), dst)
  if pos < t.entities.length then
    some (⟨t.id, rows', listSwapRemoveAt t.entities pos⟩,
          { dst' with entities := dst'.entities ++ [e] })
  else none

/-- `Table::move_entity_down`: like `move_entity_up` but kinds missing from
`dst` are dropped. -/
def moveEntityDown (t : Table) (dst : Table) (e : Entity) : Option (Table × Table) := do
  let pos ← t.entityPos e
  let (rows', dst') ← t.rows.foldlM (moveRowsStep true pos) (([] : List Row), dst)
  if pos < t.entities.length then
    some (⟨t.id, rows', listSwapRemoveAt t.entities pos⟩,
          { dst' with entities := dst'.entities ++ [e] })
  else none

end Table

/-- `ExtendableTable` (`table.rs`). -/
structure ExtendableTable where
  id : TableId
  rows : List Row
  entities : List Entity
deriving DecidableEq, Repr

namespace Table

/-- `Table::get_extendable_precomputed`: empty clones of every row under a
precomputed id. -/
def getExtendable (t : Table) (newId : TableId) : ExtendableTable :=
  ⟨newId, t.rows.map Row.cloneEmpty, []⟩

end Table

namespace ExtendableTable

/-- `ExtendableTable::extend_rows::<C>`: append `C`'s fresh rows whose kind is
not already present. -/
def extendRows (t : ExtendableTable) (ks : List Nat) : ExtendableTable :=
  { t with rows := ks.foldl (fun acc k =>
      if acc.all (fun r => r.tid != k) then acc ++ [Row.new k] else acc) t.rows }

/-- `ExtendableTable::remove_rows::<C>`: retain the rows whose kind `C` does
not name. -/
def removeRows (t : ExtendableTable) (ks : List Nat) : ExtendableTable :=
  { t with rows := t.rows.filter (fun r => !ks.contains r.tid) }

/-- `ExtendableTable::finish` (the runtime-checks assertion is elided in
release builds). -/
def finish (t : ExtendableTable) : Table := ⟨t.id, t.rows, t.entities⟩

end ExtendableTable

/-- `EntityComponents` (`components.rs`): the archetype set.  `entities` is
the entity directory of `(generation, table id)` pairs. -/
structure EntityComponents where
  tables : List Table
  entities : List (Generation × TableId)
  spawner : EntitySpawner
deriving DecidableEq, Repr

/-- Fuel-driven base-2 logarithm (structural recursion, so that concrete
directory states reduce inside the kernel). -/
def log2Fuel : Nat → Nat → Nat
  | 0, _ => 0
  | fuel + 1, n => if 2 ≤ n then log2Fuel fuel (n / 2) + 1 else 0

/-- `usize::next_power_of_two` for the directory resize: the least power of
two that is at least `n`. -/
def nextPow2 (n : Nat) : Nat := if n ≤ 1 then 1 else 2 ^ (log2Fuel n (n - 1) + 1)

namespace EntityComponents

/-- `EntityComponents::new` -/
def new : EntityComponents := ⟨[], [], EntitySpawner.new⟩

/-- The index of the first table with a given id (`iter().position`). -/
def tableIdx (s : EntityComponents) (tid : TableId) : Option Nat :=
  s.tables.findIdx? (fun t => t.id == tid)

/-- `EntityComponents::activate_entity`: grow the directory to the next power
of two if needed, then write the generation. -/
def activateEntity (s : EntityComponents) (e : Entity) : EntityComponents :=
  let dir :=
    if s.entities.length ≤ e.id then
      s.entities ++ List.replicate (nextPow2 (e.id + 1) - s.entities.length)
        (Generation.invalid, TableId.invalid)
    else s.entities
  { s with entities :=
      dir.set e.id (e.generation, (dir.getD e.id (Generation.invalid, TableId.invalid)).2) }

/-- `EntityComponents::spawn_entity`: reserve then activate. -/
def spawnEntity (s : EntityComponents) : EntityComponents × Entity :=
  let (sp, e) := s.spawner.reserve
  (activateEntity { s with spawner := sp } e, e)

/-- `EntityComponents::delete_entity`.  Note the source resets
`self.entities[pos].1` where `pos` is the *table's* index in the table list,
not the entity's directory index. -/
def deleteEntity (s : EntityComponents) (e : Entity) : Option EntityComponents :=
  match s.entities[e.id]? with
  | none => none
  | some (gen, tid) =>
    if e.generation.isInvalid || e.generation != gen then some s
    else do
      let pos ← s.tableIdx tid
      let tab ← s.tables[pos]?
      let tab' ← tab.deleteEntity e
      let tables₁ := s.tables.set pos tab'
      if pos < s.entities.length then
        let dir := s.entities.set pos
          ((s.entities.getD pos (Generation.invalid, TableId.invalid)).1, TableId.invalid)
        let sp := s.spawner.free e
        let tables₂ := if tab'.isEmpty then listSwapRemoveAt tables₁ pos else tables₁
        some ⟨tables₂, dir, sp⟩
      else none

/-- `EntityComponents::add_components`. -/
def addComponents (s : EntityComponents) (e : Entity) (c : CompSet) :
    Option EntityComponents :=
  match s.entities[e.id]? with
  | none => some s
  | some (gen, inTable) =>
    if e.generation != gen || gen.isInvalid then some s
    else
      let cid := tableIdFromList (CompSet.types c)
      if inTable.isInvalid then
        let dir := s.entities.set e.id (gen, cid)
        match s.tableIdx cid with
        | some i => do
            let tab ← s.tables[i]?
            let tab' ← tab.push e c
            some { s with tables := s.tables.set i tab', entities := dir }
        | none => do
            let tab' ← (Table.new (CompSet.types c)).push e c
            some { s with tables := s.tables ++ [tab'], entities := dir }
      else do
        let ci ← s.tableIdx inTable
        let cur ← s.tables[ci]?
        if inTable == cid then do
          let cur' ← cur.update e c
          some { s with tables := s.tables.set ci cur' }
        else if cur.containsAll (CompSet.types c) then do
          let cur' ← cur.updatePartial e c
          some { s with tables := s.tables.set ci cur' }
        else
          let unionKinds :=
            CompSet.types c ++ cur.kinds.filter (fun k => !(CompSet.types c).contains k)
          let u := tableIdFromList unionKinds
          let (ti, tables₁) :=
            match s.tableIdx u with
            | some j => (j, s.tables)
            | none =>
                (s.tables.length,
                 s.tables ++ [((cur.getExtendable u).extendRows (CompSet.types c)).finish])
          if ci == ti then none
          else do
            let curT ← tables₁[ci]?
            let tgtT ← tables₁[ti]?
            let (cur', tgt') ← curT.moveEntityUp tgtT e
            let tgt'' ← tgt'.pushMissingOrUpdate e c
            some { s with
                   tables := (tables₁.set ci cur').set ti tgt'',
                   entities := s.entities.set e.id (gen, u) }

/-- `EntityComponents::remove_component::<C>`: only the kind set of `C`
matters. -/
def removeComponent (s : EntityComponents) (e : Entity) (ks : List Nat) :
    Option EntityComponents :=
  match s.entities[e.id]? with
  | none => some s
  | some (gen, inTable) =>
    if e.generation != gen || gen.isInvalid then some s
    else if inTable.isInvalid then some s
    else do
      let ci ← s.tableIdx inTable
      let cur ← s.tables[ci]?
      let newTypes := cur.kinds.filter (fun k => !ks.contains k)
      if newTypes.isEmpty then do
        let cur' ← cur.deleteEntity e
        some { s with
               tables := s.tables.set ci cur',
               entities := s.entities.set e.id (gen, TableId.invalid) }
      else
        let u := tableIdFromList newTypes
        let (ti, tables₁) :=
          match s.tableIdx u with
          | some j => (j, s.tables)
          | none =>
              (s.tables.length,
               s.tables ++ [((cur.getExtendable u).removeRows ks).finish])
        if ci == ti then none
        else do
          let curT ← tables₁[ci]?
          let tgtT ← tables₁[ti]?
          let (cur', tgt') ← curT.moveEntityDown tgtT e
          some { s with
                 tables := (tables₁.set ci cur').set ti tgt',
                 entities := s.entities.set e.id (gen, u) }

end EntityComponents

end Eonix

namespace Eonix

/-! ## Concrete executions of the storage layer

Small closed scenarios, used to settle the claims about `Row::update`,
`EntityComponents::delete_entity` and empty-table reaping. -/

/-- The entity `(position 0, generation 0)`. -/
def ent0 : Entity := ⟨0, 0⟩

/-- Spawn one entity in a fresh archetype set. -/
def oneSpawned : EntityComponents := (EntityComponents.new.spawnEntity).1

/-- Scenario for the re-add claim: give `ent0` component kind `0` with value
`10`, then add kind `0` again with value `20`. -/
def readdState : Option EntityComponents := do
  let s2 ← oneSpawned.addComponents ent0 [(0, 10)]
  s2.addComponents ent0 [(0, 20)]

/-- Scenario for the delete claim: two entities; entity `1` gets kind `0`,
then entity `1` is deleted. -/
def deleteState : Option EntityComponents := do
  let (s1, _) := EntityComponents.new.spawnEntity
  let (s2, e1) := s1.spawnEntity
  let s3 ← s2.addComponents e1 [(0, 10)]
  s3.deleteEntity e1

/-- Scenario for the reaping claim: `ent0` has kind `0`, then kind `1` is
added, moving it out of the first table. -/
def moveOutState : Option EntityComponents := do
  let s2 ← oneSpawned.addComponents ent0 [(0, 10)]
  s2.addComponents ent0 [(1, 20)]

/-- C1: the table-homogeneity invariant is broken by `Table::update`.
Pushing one entity with one component and then calling `update` on it leaves
the single row with two values while the table holds one entity, because
`Row::update` calls `Vec::insert(position, component)` (which shifts the tail
right) instead of overwriting the slot, contradicting its own documentation
("Updates the components of the Entity in place"). -/
theorem table_update_breaks_homogeneity :
    (((Table.new [0]).push ent0 [(0, 5)] >>= fun t => t.update ent0 [(0, 7)]).map
      (fun t => (t.rows.map (fun r => r.data.length), t.entities.length)))
      = some ([2], 1) := by
  rfl

/-- C2: re-adding component kind `0` to an entity that already carries it
duplicates the stored value instead of overwriting in place: the row ends as
`[20, 10]` (two entries for one entity) because `Row::update` inserts. -/
theorem readd_duplicates_component :
    readdState.map (fun s => s.tables.map (fun t => (t.rows.map Row.data, t.entities)))
      = some [([[20, 10]], [ent0])] := by
  rfl

/-- C3: `EntityComponents::delete_entity` resets the directory slot indexed by
the *table's* position in the table list instead of the entity's own slot.
After deleting entity `1` (the only member of table index `0`), directory slot
`1` still carries the table id of the now-destroyed table, and it was slot `0`
that was overwritten. -/
theorem delete_entity_resets_wrong_slot :
    deleteState.map EntityComponents.entities
      = some [(0, TableId.invalid), (0, tableIdFromList [0])]
    ∧ tableIdFromList [0] ≠ TableId.invalid := by
  constructor
  · rfl
  · decide

/-- C8 (counterexample): after `add_components` moves the last entity of a
table into a larger archetype, the emptied source table remains in the table
list — the claim that no empty table survives any archetype-set operation is
false. -/
theorem move_out_leaves_empty_table :
    moveOutState.map (fun s => s.tables.map (fun t => t.entities.length))
      = some [0, 1] := by
  rfl

end Eonix

namespace Eonix

/-! ## Borrow cell (`cells/ref_cell.rs`)

The borrow word is a `usize` (64-bit): `HIGH` is the top bit,
`MAX_BORROWS_ATTEMPTS = HIGH + HIGH/2`. -/

/-- `HIGH` (`ref_cell.rs`): the exclusive-borrow bit. -/
def cellHigh : Nat := 2 ^ 63

/-- `MAX_BORROWS_ATTEMPTS` (`ref_cell.rs`). -/
def cellMaxAttempts : Nat := cellHigh + cellHigh / 2

/-- The classification `try_borrow_mut` returns when the compare-and-set of
`0 → HIGH` fails, mirroring which `const Error` the source picks. -/
inductive MutBorrowResult where
  /-- The CAS succeeded: the caller obtained the exclusive guard. -/
  | ok : MutBorrowResult
  /-- `ERROR_MUTABLE_BORROWED` ("Already mutably borrowed!"). -/
  | errMutablyBorrowed : MutBorrowResult
  /-- `ERROR_SHARED_BORROWED` ("Already shared borrowed!"). -/
  | errSharedBorrowed : MutBorrowResult
deriving DecidableEq, Repr

/-- `AtomicRefCell::try_borrow_mut` on a borrow word `w`: CAS `0 → HIGH`;
on failure, `old & HIGH == 0` yields `ERROR_MUTABLE_BORROWED` and the
remaining case yields `ERROR_SHARED_BORROWED` (transcribed verbatim from the
source, including which error each branch picks). -/
def tryBorrowMutClassify (w : Nat) : MutBorrowResult :=
  if w = 0 then .ok
  else if w &&& cellHigh = 0 then .errMutablyBorrowed
  else .errSharedBorrowed

/-- C6: the failure classification of `try_borrow_mut` is inverted.  With one
outstanding *shared* borrow (word `1`, high bit clear) the call reports
"Already mutably borrowed!", and with an outstanding *exclusive* borrow (word
`HIGH`) it reports "Already shared borrowed!" — the opposite of the claim,
and of the branch comments in the source itself. -/
theorem try_borrow_mut_classification_swapped :
    tryBorrowMutClassify 1 = .errMutablyBorrowed
    ∧ tryBorrowMutClassify cellHigh = .errSharedBorrowed := by
  constructor
  · decide
  · rfl

/-- A borrow-cell configuration: the atomic word together with the numbers of
outstanding shared (`RefGuard`) and exclusive (`MutGuard`) guards.  The guard
counts are ghost state used to express the exclusion claim. -/
structure CellState where
  word : Nat
  sharedGuards : Nat
  exclGuards : Nat
deriving DecidableEq, Repr

/-- The unborrowed initial state. -/
def CellState.init : CellState := ⟨0, 0, 0⟩

/-- One step of the borrow-cell protocol, transcribed from
`try_borrow` / `try_borrow_mut` and the two guard `Drop` impls.  The
`abort()` branch of `try_borrow` terminates the process, so it produces no
successor state. -/
inductive CellStep : CellState → CellState → Prop where
  /-- `try_borrow`, success: `fetch_add(1)` saw the high bit clear in the new
  value; a shared guard is handed out. -/
  | borrowOk (s : CellState) (h : ((s.word + 1) % u64Mod) &&& cellHigh = 0) :
      CellStep s ⟨(s.word + 1) % u64Mod, s.sharedGuards + 1, s.exclGuards⟩
  /-- `try_borrow`, shared-count overflow: the increment produced exactly
  `HIGH`; the source decrements and panics, handing out nothing. -/
  | borrowPanic (s : CellState) (h : (s.word + 1) % u64Mod = cellHigh) :
      CellStep s ⟨(cellHigh + (u64Mod - 1)) % u64Mod, s.sharedGuards, s.exclGuards⟩
  /-- `try_borrow`, failure while exclusively borrowed (below the abort
  threshold): the reservation increment is left in place. -/
  | borrowErr (s : CellState) (h1 : ((s.word + 1) % u64Mod) &&& cellHigh ≠ 0)
      (h2 : (s.word + 1) % u64Mod ≠ cellHigh)
      (h3 : (s.word + 1) % u64Mod < cellMaxAttempts) :
      CellStep s ⟨(s.word + 1) % u64Mod, s.sharedGuards, s.exclGuards⟩
  /-- `try_borrow_mut`, success: the word was zero and is set to `HIGH`. -/
  | borrowMutOk (s : CellState) (h : s.word = 0) :
      CellStep s ⟨cellHigh, s.sharedGuards, s.exclGuards + 1⟩
  /-- `try_borrow_mut`, failure: the CAS leaves the word unchanged. -/
  | borrowMutErr (s : CellState) (h : s.word ≠ 0) : CellStep s s
  /-- `RefGuard::drop`: `fetch_sub(1)`. -/
  | dropShared (s : CellState) (h : 1 ≤ s.sharedGuards) :
      CellStep s ⟨(s.word + (u64Mod - 1)) % u64Mod, s.sharedGuards - 1, s.exclGuards⟩
  /-- `MutGuard::drop`: `store(0)`. -/
  | dropExcl (s : CellState) (h : 1 ≤ s.exclGuards) :
      CellStep s ⟨0, s.sharedGuards, s.exclGuards - 1⟩

/-- States reachable from the unborrowed state. -/
def CellReachable (s : CellState) : Prop :=
  Relation.ReflTransGen CellStep CellState.init s

/-- The inductive invariant of the borrow cell: either no exclusive guard is
out and the word counts exactly the shared guards, or exactly one exclusive
guard is out, no shared guard coexists with it, and the word sits between
`HIGH` and the abort threshold. -/
def CellInv (s : CellState) : Prop :=
  (s.exclGuards = 0 ∧ s.word = s.sharedGuards ∧ s.sharedGuards < cellHigh)
  ∨ (s.exclGuards = 1 ∧ s.sharedGuards = 0 ∧ cellHigh ≤ s.word ∧ s.word < cellMaxAttempts)

end Eonix

namespace Eonix

lemma cellHigh_pos : 0 < cellHigh := by norm_num [cellHigh]

lemma cellHigh_lt_max : cellHigh < cellMaxAttempts := by
  norm_num [cellHigh, cellMaxAttempts]

lemma cellMax_lt_mod : cellMaxAttempts < u64Mod := by
  norm_num [cellHigh, cellMaxAttempts, u64Mod]

lemma and_high_of_lt {x : Nat} (h : x < cellHigh) : x &&& cellHigh = 0 := by
  have hb : x.testBit 63 = false :=
    Nat.testBit_eq_false_of_lt (by simpa [cellHigh] using h)
  have hand := Nat.and_two_pow x 63
  rw [hb] at hand
  simpa [cellHigh] using hand

lemma and_high_of_ge {x : Nat} (h1 : cellHigh ≤ x) (h2 : x < 2 * cellHigh) :
    x &&& cellHigh = cellHigh := by
  have e63 : (2 : Nat) ^ 63 = 9223372036854775808 := by norm_num
  have h1' : 9223372036854775808 ≤ x := by
    have := h1; rw [cellHigh, e63] at this; exact this
  have h2' : x < 2 * 9223372036854775808 := by
    have := h2; rw [cellHigh, e63] at this; exact this
  have hb : x.testBit 63 = true := by
    rw [Nat.testBit_to_div_mod]
    simp only [decide_eq_true_eq, e63]
    omega
  have hand := Nat.and_two_pow x 63
  rw [hb] at hand
  simpa [cellHigh] using hand

lemma mod_u64_of_lt {x : Nat} (h : x < u64Mod) : x % u64Mod = x := Nat.mod_eq_of_lt h

lemma wrap_sub_one {x : Nat} (h1 : 1 ≤ x) (h2 : x < u64Mod) :
    (x + (u64Mod - 1)) % u64Mod = x - 1 := by
  have hM : 0 < u64Mod := by norm_num [u64Mod]
  have : x + (u64Mod - 1) = (x - 1) + 1 * u64Mod := by omega
  rw [this, Nat.add_mul_mod_self_right]
  exact Nat.mod_eq_of_lt (by omega)

lemma cellInv_init : CellInv CellState.init :=
  Or.inl ⟨rfl, rfl, cellHigh_pos⟩

lemma cellInv_step {s s' : CellState} (inv : CellInv s) (st : CellStep s s') :
    CellInv s' := by
  have hHM : 2 * cellHigh = u64Mod := by norm_num [cellHigh, u64Mod]
  have hHmax := cellHigh_lt_max
  have hmaxM := cellMax_lt_mod
  cases st with
  | borrowOk h =>
      rcases inv with ⟨he, hw, hs⟩ | ⟨he, hs, hw1, hw2⟩
      · have hmod : (s.word + 1) % u64Mod = s.word + 1 := mod_u64_of_lt (by omega)
        rcases Nat.lt_or_ge (s.word + 1) cellHigh with hcase | hcase
        · exact Or.inl ⟨he, by dsimp only; rw [hmod]; omega, by dsimp only; omega⟩
        · exfalso
          have heq : s.word + 1 = cellHigh := by omega
          rw [hmod, heq, Nat.and_self] at h
          exact cellHigh_pos.ne' h
      · exfalso
        have hmod : (s.word + 1) % u64Mod = s.word + 1 := mod_u64_of_lt (by omega)
        rw [hmod] at h
        have : (s.word + 1) &&& cellHigh = cellHigh :=
          and_high_of_ge (by omega) (by omega)
        rw [this] at h
        exact cellHigh_pos.ne' h
  | borrowPanic h =>
      rcases inv with ⟨he, hw, hs⟩ | ⟨he, hs, hw1, hw2⟩
      · have hmod : (s.word + 1) % u64Mod = s.word + 1 := mod_u64_of_lt (by omega)
        rw [hmod] at h
        have hwr : (cellHigh + (u64Mod - 1)) % u64Mod = cellHigh - 1 :=
          wrap_sub_one cellHigh_pos (by omega)
        exact Or.inl ⟨he, by dsimp only; rw [hwr]; omega, hs⟩
      · exfalso
        have hmod : (s.word + 1) % u64Mod = s.word + 1 := mod_u64_of_lt (by omega)
        rw [hmod] at h
        omega
  | borrowErr h1 h2 h3 =>
      rcases inv with ⟨he, hw, hs⟩ | ⟨he, hs, hw1, hw2⟩
      · exfalso
        have hmod : (s.word + 1) % u64Mod = s.word + 1 := mod_u64_of_lt (by omega)
        rw [hmod] at h1 h2
        rcases Nat.lt_or_ge (s.word + 1) cellHigh with hcase | hcase
        · exact h1 (and_high_of_lt hcase)
        · exact h2 (by omega)
      · have hmod : (s.word + 1) % u64Mod = s.word + 1 := mod_u64_of_lt (by omega)
        rw [hmod] at h3
        exact Or.inr ⟨he, hs, by dsimp only; rw [hmod]; omega,
          by dsimp only; rw [hmod]; omega⟩
  | borrowMutOk h =>
      rcases inv with ⟨he, hw, hs⟩ | ⟨he, hs, hw1, hw2⟩
      · exact Or.inr ⟨by dsimp only; omega, by dsimp only; omega, Nat.le_refl _, hHmax⟩
      · exfalso; have := cellHigh_pos; omega
  | borrowMutErr h => exact inv
  | dropShared h =>
      rcases inv with ⟨he, hw, hs⟩ | ⟨he, hs, hw1, hw2⟩
      · have hwr : (s.word + (u64Mod - 1)) % u64Mod = s.word - 1 :=
          wrap_sub_one (by omega) (by omega)
        exact Or.inl ⟨he, by dsimp only; rw [hwr]; omega, by dsimp only; omega⟩
      · exfalso; omega
  | dropExcl h =>
      rcases inv with ⟨he, hw, hs⟩ | ⟨he, hs, hw1, hw2⟩
      · exfalso; omega
      · exact Or.inl ⟨by dsimp only; omega, by dsimp only; omega,
          by have := cellHigh_pos; dsimp only; omega⟩

lemma cellInv_of_reachable {s : CellState} (h : CellReachable s) : CellInv s := by
  induction h with
  | refl => exact cellInv_init
  | tail _ st ih => exact cellInv_step ih st

/-- C9: borrow-cell exclusion.  Along every sequence of `try_borrow`,
`try_borrow_mut` and guard-drop steps from the unborrowed state, at most one
exclusive guard is ever outstanding, exclusive and shared guards never
coexist, while no exclusive guard is out the borrow word counts exactly the
outstanding shared guards (so `RefGuard::drop`'s `fetch_sub(1)` releases
exactly one of them), and while the exclusive guard is out the word keeps the
high bit (so `MutGuard::drop`'s `store(0)` returns to the unborrowed word). -/
theorem borrow_cell_exclusion (s : CellState) (h : CellReachable s) :
    s.exclGuards ≤ 1
    ∧ ¬(1 ≤ s.exclGuards ∧ 1 ≤ s.sharedGuards)
    ∧ (s.exclGuards = 0 → s.word = s.sharedGuards)
    ∧ (s.exclGuards = 1 → s.sharedGuards = 0 ∧ cellHigh ≤ s.word) := by
  rcases cellInv_of_reachable h with ⟨he, hw, hs⟩ | ⟨he, hs, hw1, hw2⟩
  · exact ⟨by omega, by omega, fun _ => hw, fun h1 => by omega⟩
  · exact ⟨by omega, by omega, fun h0 => by omega, fun _ => ⟨hs, hw1⟩⟩

/-- Witness for C9: the state holding one exclusive guard, reached by a
single successful `try_borrow_mut`, satisfies the exclusion properties. -/
theorem borrow_cell_exclusion_witness :
    (⟨cellHigh, 0, 1⟩ : CellState).exclGuards ≤ 1
    ∧ ¬(1 ≤ (⟨cellHigh, 0, 1⟩ : CellState).exclGuards
        ∧ 1 ≤ (⟨cellHigh, 0, 1⟩ : CellState).sharedGuards)
    ∧ ((⟨cellHigh, 0, 1⟩ : CellState).exclGuards = 0
        → (⟨cellHigh, 0, 1⟩ : CellState).word = (⟨cellHigh, 0, 1⟩ : CellState).sharedGuards)
    ∧ ((⟨cellHigh, 0, 1⟩ : CellState).exclGuards = 1
        → (⟨cellHigh, 0, 1⟩ : CellState).sharedGuards = 0
          ∧ cellHigh ≤ (⟨cellHigh, 0, 1⟩ : CellState).word) :=
  borrow_cell_exclusion ⟨cellHigh, 0, 1⟩
    (Relation.ReflTransGen.single (CellStep.borrowMutOk CellState.init rfl))

end Eonix

namespace Eonix

/-! ## Filters and query validation (`filter.rs`, `query.rs`) -/

/-- `FilterType` (`filter.rs`): `Has` for `With<C>`, `Not` for `WithOut<C>`. -/
inductive FilterType where
  | hasK (k : Nat) : FilterType
  | notK (k : Nat) : FilterType
deriving DecidableEq, Repr

namespace FilterType

/-- `FilterType::raw_type` -/
def rawType : FilterType → Nat
  | .hasK k => k
  | .notK k => k

/-- `FilterType::validate` finds a `(Has t, Not t)` / `(Not t, Has t)` pair at
distinct positions.  Since the two patterns need distinct constructors, an
element never pairs with itself, so the `i != j` guard of the source loop is
redundant and the double `any` below is equivalent. -/
def validateErr (types : List FilterType) : Bool :=
  types.any (fun f1 => types.any (fun f2 =>
    match f1, f2 with
    | .hasK t1, .notK t2 => t1 == t2
    | .notK t1, .hasK t2 => t1 == t2
    | _, _ => false))

/-- `FilterType::prevents_overlapping`: two filter lists are declared
archetype-disjoint when one holds `Has t` and the other `Not t`. -/
def preventsOverlapping (a b : List FilterType) : Bool :=
  a.any (fun x => b.any (fun y =>
    match x, y with
    | .hasK t1, .notK t2 => t1 == t2
    | .notK t1, .hasK t2 => t1 == t2
    | _, _ => false))

end FilterType

/-- The extractor's per-unit description: `Extract::raw_unit_type` returns the
component kind and whether the unit is non-optional (`&C` / `&mut C` give
`true`, `Option<...>` gives `false`). -/
abbrev ExtractorSpec := List (Nat × Bool)

/-- `Query::validate` (`query.rs`, runtime-checks build), as a predicate "the
construction panics": `E::validate` panics on duplicate kinds in the
extractor or an all-optional extractor, `F::validate` panics on a
`With`/`Without` pair over one kind, and the cross check panics when any
extractor kind equals the raw type of any filter term. -/
def queryValidatePanics (ext : ExtractorSpec) (flt : List FilterType) : Bool :=
  !(ext.map Prod.fst).Nodup
  || ext.all (fun p => !p.2)
  || FilterType.validateErr flt
  || ext.any (fun p => flt.any (fun f => p.1 == f.rawType))

/-- C7 (counterexample): a query extracting kind `0` under the filter
`With<kind 0>` (and no `Without`) *does* panic at construction: the cross
check in `Query::validate` compares raw types only and does not exempt `With`
filters, so the claim's non-panicking case is refuted. -/
theorem extract_with_same_kind_panics :
    queryValidatePanics [(0, true)] [.hasK 0] = true := by decide

/-- C7 (amended): in checked builds `Query` construction panics when the
filter combines `With<K>` and `Without<K>` on one kind, when an extractor
kind appears in a `Without` filter, and also when an extractor kind appears
in a `With` filter — any filter naming an extracted kind is rejected. -/
theorem query_validate_rejects_conflicts (ext : ExtractorSpec) (flt : List FilterType) :
    ((∃ k, FilterType.hasK k ∈ flt ∧ FilterType.notK k ∈ flt)
        → queryValidatePanics ext flt = true)
    ∧ ((∃ p ∈ ext, FilterType.notK p.1 ∈ flt) → queryValidatePanics ext flt = true)
    ∧ ((∃ p ∈ ext, FilterType.hasK p.1 ∈ flt) → queryValidatePanics ext flt = true) := by
  refine ⟨?_, ?_, ?_⟩
  · rintro ⟨k, h1, h2⟩
    simp only [queryValidatePanics, Bool.or_eq_true]
    refine Or.inl (Or.inr ?_)
    simp only [FilterType.validateErr, List.any_eq_true]
    exact ⟨.hasK k, h1, .notK k, h2, by simp⟩
  · rintro ⟨p, hp, hf⟩
    simp only [queryValidatePanics, Bool.or_eq_true]
    refine Or.inr ?_
    simp only [List.any_eq_true]
    exact ⟨p, hp, .notK p.1, hf, by simp [FilterType.rawType]⟩
  · rintro ⟨p, hp, hf⟩
    simp only [queryValidatePanics, Bool.or_eq_true]
    refine Or.inr ?_
    simp only [List.any_eq_true]
    exact ⟨p, hp, .hasK p.1, hf, by simp [FilterType.rawType]⟩

/-- Witness for C7's amended theorem: each of the three panic conditions,
discharged on a concrete query specification. -/
theorem query_validate_rejects_conflicts_witness :
    queryValidatePanics [(0, true)] [.hasK 1, .notK 1] = true
    ∧ queryValidatePanics [(2, true)] [.notK 2] = true
    ∧ queryValidatePanics [(3, true)] [.hasK 3] = true :=
  ⟨(query_validate_rejects_conflicts [(0, true)] [.hasK 1, .notK 1]).1
      ⟨1, by decide, by decide⟩,
   (query_validate_rejects_conflicts [(2, true)] [.notK 2]).2.1
      ⟨(2, true), by decide, by decide⟩,
   (query_validate_rejects_conflicts [(3, true)] [.hasK 3]).2.2
      ⟨(3, true), by decide, by decide⟩⟩

end Eonix

namespace Eonix

/-! ## `Query::get_entity_components` (`query.rs`, `trait_impl.rs`)

A constructed query holds per-table access handles (table id, the entity
column, and the extracted rows) plus a snapshot of the entity directory.
`RowAccess::get_entity_components` indexes each row at the entity's slot with
an `unwrap!`; the panic is modelled as `Except.error ()`. -/

/-- `TableAccess`: one retained table of a query. -/
structure TableAccessV where
  tableId : TableId
  ents : List Entity
  rows : List (List Nat)
deriving DecidableEq, Repr

/-- Read every extracted row at slot `pos` (the tuple of
`RowAccess::get_entity_components` calls); a too-short row is the `unwrap!`
panic, propagated as `none`. -/
def readRows (rows : List (List Nat)) (pos : Nat) : Option (List Nat) :=
  match rows with
  | [] => some []
  | r :: rest => do
      let v ← r[pos]?
      let vs ← readRows rest pos
      some (v :: vs)

/-- `GetComponentAccess::get_entity` (`trait_impl.rs`): locate the entity in
the table's entity column, then read every extracted row at that slot. -/
def TableAccessV.getEntity (ta : TableAccessV) (e : Entity) :
    Except Unit (Option (List Nat)) :=
  match ta.ents.findIdx? (fun x => x == e) with
  | none => .ok none
  | some pos =>
      match readRows ta.rows pos with
      | none => .error ()
      | some vs => .ok (some vs)

/-- The data of a constructed `Query`: retained table accesses plus the
directory slice. -/
structure QueryView where
  tables : List TableAccessV
  dir : List (Generation × TableId)
deriving DecidableEq, Repr

/-- `Query::get_entity_components` (`query.rs`). -/
def QueryView.getEntityComponents (q : QueryView) (e : Entity) :
    Except Unit (Option (List Nat)) :=
  match q.dir[e.id]? with
  | none => .ok none
  | some (g, t) =>
      if g ≠ e.generation then .ok none
      else if t.isInvalid then .ok none
      else
        match q.tables.find? (fun ta => ta.tableId == t) with
        | none => .ok none
        | some ta => ta.getEntity e

lemma readRows_of_lt {rows : List (List Nat)} {pos : Nat}
    (h : ∀ r ∈ rows, pos < r.length) :
    ∃ vs, readRows rows pos = some vs := by
  induction rows with
  | nil => exact ⟨[], rfl⟩
  | cons r rest ih =>
      obtain ⟨vs, hvs⟩ := ih (fun r hr => h r (List.mem_cons_of_mem _ hr))
      have hr : pos < r.length := h r (List.mem_cons_self _ _)
      exact ⟨r[pos] :: vs, by
        simp only [readRows, hvs, List.getElem?_eq_getElem hr]; rfl⟩

/-- C10: `Query::get_entity_components` never panics on a well-formed query
(every retained row at least as long as the table's entity column), returns
`None` whenever the entity's index is outside the directory, the directory
generation differs, the table id is invalid, or the named table is not
retained, and returns values only read at the looked-up entity's own slot of
a retained table. -/
theorem query_get_entity_components_safe (q : QueryView) (e : Entity)
    (hlen : ∀ ta ∈ q.tables, ∀ r ∈ ta.rows, ta.ents.length ≤ r.length) :
    q.getEntityComponents e ≠ .error ()
    ∧ (∀ vs, q.getEntityComponents e = .ok (some vs) →
        ∃ g t ta pos, q.dir[e.id]? = some (g, t) ∧ g = e.generation
          ∧ t.isInvalid = false
          ∧ q.tables.find? (fun x => x.tableId == t) = some ta
          ∧ pos < ta.ents.length ∧ ta.ents[pos]? = some e
          ∧ readRows ta.rows pos = some vs)
    ∧ ((q.dir[e.id]? = none
        ∨ (∃ g t, q.dir[e.id]? = some (g, t) ∧ g ≠ e.generation)
        ∨ (∃ g t, q.dir[e.id]? = some (g, t) ∧ t.isInvalid = true)
        ∨ (∃ g t, q.dir[e.id]? = some (g, t) ∧ g = e.generation
            ∧ q.tables.find? (fun x => x.tableId == t) = none))
        → q.getEntityComponents e = .ok none) := by
  have master : ∀ r, q.getEntityComponents e = r →
      (r ≠ .error ()) ∧ (∀ vs, r = .ok (some vs) →
        ∃ g t ta pos, q.dir[e.id]? = some (g, t) ∧ g = e.generation
          ∧ t.isInvalid = false
          ∧ q.tables.find? (fun x => x.tableId == t) = some ta
          ∧ pos < ta.ents.length ∧ ta.ents[pos]? = some e
          ∧ readRows ta.rows pos = some vs) := by
    intro r hr
    unfold QueryView.getEntityComponents at hr
    cases hdir : q.dir[e.id]? with
    | none =>
        rw [hdir] at hr
        exact ⟨hr ▸ (by simp), fun vs hvs => by rw [← hr] at hvs; simp at hvs⟩
    | some p =>
        obtain ⟨g, t⟩ := p
        rw [hdir] at hr
        dsimp only at hr
        by_cases hg : g ≠ e.generation
        · rw [if_pos hg] at hr
          exact ⟨hr ▸ (by simp), fun vs hvs => by rw [← hr] at hvs; simp at hvs⟩
        · rw [if_neg hg] at hr
          by_cases ht : t.isInvalid
          · rw [if_pos ht] at hr
            exact ⟨hr ▸ (by simp), fun vs hvs => by rw [← hr] at hvs; simp at hvs⟩
          · rw [if_neg ht] at hr
            cases hfind : q.tables.find? (fun ta => ta.tableId == t) with
            | none =>
                rw [hfind] at hr
                exact ⟨hr ▸ (by simp), fun vs hvs => by rw [← hr] at hvs; simp at hvs⟩
            | some ta =>
                rw [hfind] at hr
                have hmem : ta ∈ q.tables := List.mem_of_find?_eq_some hfind
                unfold TableAccessV.getEntity at hr
                dsimp only at hr
                cases hidx : ta.ents.findIdx? (fun x => x == e) with
                | none =>
                    rw [hidx] at hr
                    exact ⟨hr ▸ (by simp), fun vs hvs => by rw [← hr] at hvs; simp at hvs⟩
                | some pos =>
                    rw [hidx] at hr
                    dsimp only at hr
                    rw [List.findIdx?_eq_some_iff_getElem] at hidx
                    obtain ⟨hlt, hpe, _⟩ := hidx
                    obtain ⟨vs0, hvs0⟩ := readRows_of_lt
                      (fun r hr' => Nat.lt_of_lt_of_le hlt (hlen ta hmem r hr'))
                    rw [hvs0] at hr
                    refine ⟨hr ▸ (by simp), fun vs hvs => ?_⟩
                    rw [← hr] at hvs
                    simp only [Except.ok.injEq, Option.some.injEq] at hvs
                    refine ⟨g, t, ta, pos, rfl, by push_neg at hg; exact hg,
                      by simpa using ht, hfind, hlt, ?_, hvs ▸ hvs0⟩
                    rw [List.getElem?_eq_getElem hlt]
                    simpa using hpe
  obtain ⟨h1, h2⟩ := master _ rfl
  refine ⟨h1, h2, ?_⟩
  · intro hcase
    unfold QueryView.getEntityComponents
    rcases hcase with hdir | ⟨g, t, hdir, hg⟩ | ⟨g, t, hdir, ht⟩ | ⟨g, t, hdir, hg, hfind⟩
    · rw [hdir]
    · rw [hdir]; simp [hg]
    · rw [hdir]
      by_cases hg : g ≠ e.generation
      · simp [hg]
      · simp [hg, ht]
    · rw [hdir]
      simp only [hg, ne_eq, not_true_eq_false, if_false]
      by_cases ht : t.isInvalid
      · simp [ht]
      · simp only [ht, if_false, Bool.false_eq_true]
        rw [hfind]

/-- A concrete constructed query: one retained table with one entity. -/
def sampleQuery : QueryView :=
  ⟨[⟨tableIdFromList [0], [ent0], [[42]]⟩], [(0, tableIdFromList [0])]⟩

/-- Witness for C10: the safety theorem applied to `sampleQuery` and `ent0`,
with the row-length hypothesis discharged by computation. -/
theorem query_get_entity_components_safe_witness :
    sampleQuery.getEntityComponents ent0 ≠ .error ()
    ∧ (∀ vs, sampleQuery.getEntityComponents ent0 = .ok (some vs) →
        ∃ g t ta pos, sampleQuery.dir[ent0.id]? = some (g, t) ∧ g = ent0.generation
          ∧ t.isInvalid = false
          ∧ sampleQuery.tables.find? (fun x => x.tableId == t) = some ta
          ∧ pos < ta.ents.length ∧ ta.ents[pos]? = some ent0
          ∧ readRows ta.rows pos = some vs)
    ∧ ((sampleQuery.dir[ent0.id]? = none
        ∨ (∃ g t, sampleQuery.dir[ent0.id]? = some (g, t) ∧ g ≠ ent0.generation)
        ∨ (∃ g t, sampleQuery.dir[ent0.id]? = some (g, t) ∧ t.isInvalid = true)
        ∨ (∃ g t, sampleQuery.dir[ent0.id]? = some (g, t) ∧ g = ent0.generation
            ∧ sampleQuery.tables.find? (fun x => x.tableId == t) = none))
        → sampleQuery.getEntityComponents ent0 = .ok none) :=
  query_get_entity_components_safe sampleQuery ent0 (by decide)

end Eonix

namespace Eonix

/-! ## Scheduler planner (`schedule/builder.rs`, `schedule/mod.rs`, `system.rs`) -/

/-- `ParamType` (`system.rs`): a per-kind access declaration. -/
inductive PType where
  | pmut (k : Nat) : PType
  | pshared (k : Nat) : PType
  | pworld : PType
deriving DecidableEq, Repr

namespace PType

/-- `ParamType::is_world` -/
def isWorld : PType → Bool
  | .pworld => true
  | _ => false

/-- `ParamType::conflicts` -/
def conflicts : PType → PType → Bool
  | .pmut a, .pmut b => a == b
  | .pmut a, .pshared b => a == b
  | .pshared a, .pmut b => a == b
  | .pshared _, .pshared _ => false
  | .pworld, _ => true
  | _, .pworld => true

end PType

lemma natBeq_symm (a b : Nat) : (a == b) = (b == a) := by
  by_cases h : a = b
  · subst h; rfl
  · simp [beq_iff_eq, h, Ne.symm h]

lemma ptype_conflicts_symm (a b : PType) : PType.conflicts a b = PType.conflicts b a := by
  cases a <;> cases b <;> simp [PType.conflicts, natBeq_symm]

lemma prevents_overlapping_symm (a b : List FilterType) :
    FilterType.preventsOverlapping a b = FilterType.preventsOverlapping b a := by
  rw [Bool.eq_iff_iff]
  simp only [FilterType.preventsOverlapping, List.any_eq_true]
  constructor
  · rintro ⟨x, hx, y, hy, h⟩
    refine ⟨y, hy, x, hx, ?_⟩
    cases x <;> cases y <;> simp_all [beq_iff_eq]
  · rintro ⟨x, hx, y, hy, h⟩
    refine ⟨y, hy, x, hx, ?_⟩
    cases x <;> cases y <;> simp_all [beq_iff_eq]

/-- `SystemInfo` (`schedule/mod.rs`): footprint plus filter list of one
system. -/
structure SystemInfo where
  types : List PType
  filter : List FilterType
deriving DecidableEq, Repr

/-- `SystemInfo::conflicts`: some pair of declared accesses conflicts, and
either one is a `World` access or the two filter lists do not force disjoint
archetypes. -/
def SystemInfo.conflicts (a b : SystemInfo) : Bool :=
  a.types.any (fun ta => b.types.any (fun tb =>
    ta.conflicts tb && (ta.isWorld || tb.isWorld
      || !FilterType.preventsOverlapping a.filter b.filter)))

lemma systemInfo_conflicts_symm (a b : SystemInfo) :
    SystemInfo.conflicts a b = SystemInfo.conflicts b a := by
  rw [Bool.eq_iff_iff]
  simp only [SystemInfo.conflicts, List.any_eq_true, Bool.and_eq_true, Bool.or_eq_true]
  constructor
  · rintro ⟨x, hx, y, hy, hc, hw⟩
    refine ⟨y, hy, x, hx, by rw [ptype_conflicts_symm]; exact hc, ?_⟩
    rw [prevents_overlapping_symm]
    tauto
  · rintro ⟨x, hx, y, hy, hc, hw⟩
    refine ⟨y, hy, x, hx, by rw [ptype_conflicts_symm]; exact hc, ?_⟩
    rw [prevents_overlapping_symm]
    tauto

/-- `SetInfo` (`schedule/mod.rs`): the systems of a `SystemSet` plus the
coerced locality flag. -/
structure SetInfo where
  systems : List SystemInfo
  localFlag : Bool
deriving DecidableEq, Repr

/-- `SetInfo::conflicts` -/
def SetInfo.conflicts (a b : SetInfo) : Bool :=
  a.systems.any (fun sa => b.systems.any (fun sb => sa.conflicts sb))

lemma setInfo_conflicts_symm (a b : SetInfo) :
    SetInfo.conflicts a b = SetInfo.conflicts b a := by
  rw [Bool.eq_iff_iff]
  simp only [SetInfo.conflicts, List.any_eq_true]
  constructor
  · rintro ⟨x, hx, y, hy, h⟩
    exact ⟨y, hy, x, hx, by rw [systemInfo_conflicts_symm]; exact h⟩
  · rintro ⟨x, hx, y, hy, h⟩
    exact ⟨y, hy, x, hx, by rw [systemInfo_conflicts_symm]; exact h⟩

/-- A node of a root's linked list (`schedule/graph.rs`), with the system-set
payload reduced to its planner-visible `SetInfo`. -/
inductive BNode where
  | runSet (s : SetInfo) : BNode
  | sync : BNode
deriving DecidableEq, Repr

/-- `GraphBuilder`'s per-pass mutable state (`schedule/builder.rs`). -/
structure BuildState where
  reserved : List (List SetInfo)
  current : List (List BNode)
  sinceSync : List Nat
  leftovers : List SetInfo
deriving Repr

/-- `GraphBuilder::check_for_type_conflict` -/
def checkTypeConflict (storedSets : List SetInfo) (s : SetInfo) : Bool :=
  storedSets.any (fun stored => stored.conflicts s)

/-- The conflict-thread scan: every thread whose reserved footprint conflicts
with `s`, in thread order. -/
def conflictThreads (n : Nat) (reserved : List (List SetInfo)) (s : SetInfo) :
    List Nat :=
  (List.range n).filter (fun t => checkTypeConflict (reserved.getD t []) s)

/-- `GraphBuilder::thread_min_nodes`: first index with the fewest nodes since
the last barrier (`Iterator::min_by` keeps the first minimum). -/
def idxOfMinLen (ls : List (List BNode)) : Nat :=
  (ls.enum.foldl
    (fun acc p => if p.2.length < acc.2 then (p.1, p.2.length) else acc)
    (0, (ls.headD []).length)).1

/-- Last index holding the maximum (`Iterator::max_by` keeps the last
maximum), with the maximum value. -/
def lastMaxIdx (xs : List Nat) : Nat × Nat :=
  xs.enum.foldl (fun acc p => if acc.2 ≤ p.2 then (p.1, p.2) else acc)
    (0, xs.headD 0)

/-- First minimum value (`Iterator::min_by` keeps the first minimum). -/
def minVal (xs : List Nat) : Nat :=
  xs.foldl Nat.min (xs.headD 0)

/-- `GraphBuilder::check_tail_too_long`. -/
def checkTailTooLong (sinceSync : List Nat) (maxTail tI : Nat) : Bool :=
  let m := lastMaxIdx sinceSync
  if tI != m.1 then false
  else maxTail ≤ m.2 - minVal sinceSync

/-- Record a system set on a thread: push the node, bump the since-barrier
counter, reserve the footprint. -/
def placeSet (st : BuildState) (t : Nat) (s : SetInfo) : BuildState :=
  { st with
    current := st.current.set t ((st.current.getD t []) ++ [BNode.runSet s]),
    sinceSync := st.sinceSync.set t ((st.sinceSync.getD t 0) + 1),
    reserved := st.reserved.set t ((st.reserved.getD t []) ++ [s]) }

/-- The conflict list of one system set: the conflicting threads, plus
thread 0 appended for a local set not already conflicting there. -/
def conflictList (n : Nat) (reserved : List (List SetInfo)) (s : SetInfo) : List Nat :=
  let base := conflictThreads n reserved s
  if s.localFlag && !(base.contains 0) then base ++ [0] else base

/-- The body of the `for system in systems.drain(..)` loop of
`GraphBuilder::build_graph_from`, matching on `conflicts.len()`:
no conflict takes the least-loaded thread, one conflict takes that thread
(both subject to the `max_tail` deferral), more defers the set. -/
def processSet (n maxTail : Nat) (st : BuildState) (s : SetInfo) : BuildState :=
  if (conflictList n st.reserved s).length = 0 then
    if checkTailTooLong st.sinceSync maxTail (idxOfMinLen st.current) then
      { st with leftovers := st.leftovers ++ [s] }
    else placeSet st (idxOfMinLen st.current) s
  else if (conflictList n st.reserved s).length = 1 then
    if checkTailTooLong st.sinceSync maxTail ((conflictList n st.reserved s).headD 0) then
      { st with leftovers := st.leftovers ++ [s] }
    else placeSet st ((conflictList n st.reserved s).headD 0) s
  else { st with leftovers := st.leftovers ++ [s] }

/-- The cleared per-pass state. -/
def initPass (n : Nat) : BuildState :=
  ⟨List.replicate n [], List.replicate n [], List.replicate n 0, []⟩

/-- End of a pass: append each thread's collected nodes and a barrier node to
its root. -/
def flushPass (n : Nat) (tree : List (List BNode)) (st : BuildState) :
    List (List BNode) :=
  (List.range n).map (fun t => tree.getD t [] ++ st.current.getD t [] ++ [BNode.sync])

/-- The `while first || !systems.is_empty()` loop, fuel-truncated: the source
loop can fail to terminate (for example one thread with `max_tail = 0`), in
which case the fuel runs out and the tree built so far is returned. -/
def buildLoop (n maxTail : Nat) : Nat → List SetInfo → List (List BNode) →
    List (List BNode)
  | 0, _, tree => tree
  | fuel + 1, systems, tree =>
      if (systems.foldl (processSet n maxTail) (initPass n)).leftovers.isEmpty then
        flushPass n tree (systems.foldl (processSet n maxTail) (initPass n))
      else
        buildLoop n maxTail fuel
          (systems.foldl (processSet n maxTail) (initPass n)).leftovers
          (flushPass n tree (systems.foldl (processSet n maxTail) (initPass n)))

/-- `GraphBuilder::build_graph_from`: `n` is the root count (worker threads
plus main). -/
def buildGraphFrom (n maxTail : Nat) (systems : List SetInfo) :
    List (List BNode) :=
  if systems.isEmpty then []
  else buildLoop n maxTail (systems.length + 1) systems (List.replicate n [])

/-- The system sets of one root, split into barrier intervals. -/
def intervalsOf : List BNode → List (List SetInfo)
  | [] => [[]]
  | .sync :: rest => [] :: intervalsOf rest
  | .runSet s :: rest =>
      match intervalsOf rest with
      | [] => [[s]]
      | iv :: ivs => (s :: iv) :: ivs

end Eonix

namespace Eonix

/-! ### Invariants of the planner -/

lemma getD_set_self {α} (l : List α) (i : Nat) (a d : α) (h : i < l.length) :
    (l.set i a).getD i d = a := by
  simp [List.getD_eq_getElem?_getD, List.getElem?_set_self', h]

lemma getD_set_ne {α} (l : List α) {i j : Nat} (a d : α) (h : i ≠ j) :
    (l.set i a).getD j d = l.getD j d := by
  simp [List.getD_eq_getElem?_getD, List.getElem?_set_ne h]

lemma getD_replicate {α} (n t : Nat) (x : α) : (List.replicate n x).getD t x = x := by
  simp only [List.getD_eq_getElem?_getD, List.getElem?_replicate]
  split <;> simp

lemma getD_oob {α} (l : List α) (i : Nat) (d : α) (h : l.length ≤ i) :
    l.getD i d = d := by
  simp [List.getD_eq_getElem?_getD, List.getElem?_eq_none h]

/-- The system sets stored in a run of nodes. -/
def rowSets (row : List BNode) : List SetInfo :=
  row.filterMap (fun b => match b with | .runSet s => some s | .sync => none)

lemma rowSets_append_run (row : List BNode) (s : SetInfo) :
    rowSets (row ++ [BNode.runSet s]) = rowSets row ++ [s] := by
  simp [rowSets]

/-- The per-pass invariant of `GraphBuilder`: the thread-state vectors have
the right lengths, each thread's collected nodes are exactly its reserved
system sets (and contain no barrier), and reserved sets on distinct threads
never conflict. -/
structure PassInv (n : Nat) (st : BuildState) : Prop where
  lenR : st.reserved.length = n
  lenC : st.current.length = n
  rows : ∀ t, rowSets (st.current.getD t []) = st.reserved.getD t []
  noSync : ∀ t, ∀ b ∈ st.current.getD t [], b ≠ BNode.sync
  cross : ∀ t t', t ≠ t' → ∀ a ∈ st.reserved.getD t [], ∀ b ∈ st.reserved.getD t' [],
      SetInfo.conflicts a b = false

lemma passInv_init (n : Nat) : PassInv n (initPass n) := by
  refine ⟨by simp [initPass], by simp [initPass], ?_, ?_, ?_⟩
  · intro t; simp [initPass, getD_replicate, rowSets]
  · intro t b hb; rw [initPass] at hb; simp only at hb
    rw [getD_replicate] at hb; simp at hb
  · intro t t' _ a ha
    rw [initPass] at ha; simp only at ha
    rw [getD_replicate] at ha; simp at ha

lemma checkTypeConflict_false {stored : List SetInfo} {s : SetInfo}
    (h : checkTypeConflict stored s = false) :
    ∀ a ∈ stored, SetInfo.conflicts a s = false := by
  intro a ha
  rw [checkTypeConflict, List.any_eq_false] at h
  simpa using h a ha

lemma placeSet_inv {n : Nat} {st : BuildState} {s : SetInfo} {tstar : Nat}
    (inv : PassInv n st)
    (hplace : ∀ t', t' ≠ tstar →
      checkTypeConflict (st.reserved.getD t' []) s = false) :
    PassInv n (placeSet st tstar s) := by
  by_cases hts : tstar < n
  · have hcr : tstar < st.current.length := by rw [inv.lenC]; exact hts
    have hrr : tstar < st.reserved.length := by rw [inv.lenR]; exact hts
    refine ⟨by simp [placeSet, inv.lenR], by simp [placeSet, inv.lenC], ?_, ?_, ?_⟩
    · intro t
      by_cases ht : t = tstar
      · subst ht
        rw [placeSet]; simp only
        rw [getD_set_self _ _ _ _ hcr, getD_set_self _ _ _ _ hrr,
          rowSets_append_run, inv.rows t]
      · rw [placeSet]; simp only
        rw [getD_set_ne _ _ _ (fun he => ht he.symm),
          getD_set_ne _ _ _ (fun he => ht he.symm)]
        exact inv.rows t
    · intro t b hb
      by_cases ht : t = tstar
      · subst ht
        rw [placeSet] at hb; simp only at hb
        rw [getD_set_self _ _ _ _ hcr] at hb
        rcases List.mem_append.1 hb with h1 | h1
        · exact inv.noSync t b h1
        · simp only [List.mem_singleton] at h1; subst h1; simp
      · rw [placeSet] at hb; simp only at hb
        rw [getD_set_ne _ _ _ (fun he => ht he.symm)] at hb
        exact inv.noSync t b hb
    · intro t t' hne a ha b hb
      rw [placeSet] at ha hb; simp only at ha hb
      by_cases h1 : t = tstar
      · subst h1
        rw [getD_set_self _ _ _ _ hrr] at ha
        rw [getD_set_ne _ _ _ hne] at hb
        rcases List.mem_append.1 ha with h2 | h2
        · exact inv.cross t t' hne a h2 b hb
        · simp only [List.mem_singleton] at h2; subst h2
          have := checkTypeConflict_false (hplace t' (fun he => hne he.symm)) b hb
          rw [setInfo_conflicts_symm]; exact this
      · rw [getD_set_ne _ _ _ (fun he => h1 he.symm)] at ha
        by_cases h2 : t' = tstar
        · subst h2
          rw [getD_set_self _ _ _ _ hrr] at hb
          rcases List.mem_append.1 hb with h3 | h3
          · exact inv.cross t t' hne a ha b h3
          · simp only [List.mem_singleton] at h3; subst h3
            exact checkTypeConflict_false (hplace t h1) a ha
        · rw [getD_set_ne _ _ _ (fun he => h2 he.symm)] at hb
          exact inv.cross t t' hne a ha b hb
  · have h1 : st.current.set tstar ((st.current.getD tstar []) ++ [BNode.runSet s])
        = st.current := List.set_eq_of_length_le (by rw [inv.lenC]; omega)
    have h2 : st.reserved.set tstar ((st.reserved.getD tstar []) ++ [s])
        = st.reserved := List.set_eq_of_length_le (by rw [inv.lenR]; omega)
    refine ⟨?_, ?_, ?_, ?_, ?_⟩ <;> rw [placeSet] <;> simp only [h1, h2]
    · exact inv.lenR
    · exact inv.lenC
    · exact inv.rows
    · exact inv.noSync
    · exact inv.cross

end Eonix

namespace Eonix

lemma conflictThreads_mem {n : Nat} {reserved : List (List SetInfo)} {s : SetInfo}
    {t : Nat} :
    t ∈ conflictThreads n reserved s
      ↔ t < n ∧ checkTypeConflict (reserved.getD t []) s = true := by
  simp [conflictThreads, List.mem_filter, List.mem_range]

lemma conflictList_all_false {n : Nat} {reserved : List (List SetInfo)} {s : SetInfo}
    (lenR : reserved.length = n)
    (h : (conflictList n reserved s).length = 0) (t' : Nat) :
    checkTypeConflict (reserved.getD t' []) s = false := by
  by_cases ht : t' < n
  · have hb : conflictThreads n reserved s = [] := by
      simp only [conflictList] at h
      by_cases hc : (s.localFlag && !((conflictThreads n reserved s).contains 0)) = true
      · rw [if_pos hc] at h; simp at h
      · rw [if_neg hc] at h; exact List.length_eq_zero.mp h
    cases hcheck : checkTypeConflict (reserved.getD t' []) s with
    | false => rfl
    | true =>
        have : t' ∈ conflictThreads n reserved s := conflictThreads_mem.mpr ⟨ht, hcheck⟩
        rw [hb] at this; exact absurd this (List.not_mem_nil t')
  · rw [getD_oob _ _ _ (by omega)]; rfl

lemma conflictList_single {n : Nat} {reserved : List (List SetInfo)} {s : SetInfo}
    (lenR : reserved.length = n)
    (h : (conflictList n reserved s).length = 1) (t' : Nat)
    (hne : t' ≠ (conflictList n reserved s).headD 0) :
    checkTypeConflict (reserved.getD t' []) s = false := by
  by_cases ht : t' < n
  · cases hcheck : checkTypeConflict (reserved.getD t' []) s with
    | false => rfl
    | true =>
        have hmem : t' ∈ conflictThreads n reserved s :=
          conflictThreads_mem.mpr ⟨ht, hcheck⟩
        have hsub : t' ∈ conflictList n reserved s := by
          simp only [conflictList]
          split
          · exact List.mem_append_left _ hmem
          · exact hmem
        obtain ⟨x, hx⟩ := List.length_eq_one.mp h
        rw [hx] at hsub hne
        simp only [List.mem_singleton] at hsub
        simp only [List.headD_cons] at hne
        exact absurd hsub hne
  · rw [getD_oob _ _ _ (by omega)]; rfl

lemma processSet_inv {n maxTail : Nat} {st : BuildState} {s : SetInfo}
    (inv : PassInv n st) : PassInv n (processSet n maxTail st s) := by
  rw [processSet]
  split_ifs with h0 htail h1 htail2
  · exact ⟨inv.lenR, inv.lenC, inv.rows, inv.noSync, inv.cross⟩
  · exact placeSet_inv inv (fun t' _ => conflictList_all_false inv.lenR h0 t')
  · exact ⟨inv.lenR, inv.lenC, inv.rows, inv.noSync, inv.cross⟩
  · exact placeSet_inv inv (fun t' hne => conflictList_single inv.lenR h1 t' hne)
  · exact ⟨inv.lenR, inv.lenC, inv.rows, inv.noSync, inv.cross⟩

lemma foldl_processSet_inv (n maxTail : Nat) :
    ∀ (systems : List SetInfo) (st : BuildState), PassInv n st →
      PassInv n (systems.foldl (processSet n maxTail) st) := by
  intro systems
  induction systems with
  | nil => exact fun st h => h
  | cons s rest ih => exact fun st h => ih _ (processSet_inv h)

end Eonix

namespace Eonix

lemma intervalsOf_ne_nil (l : List BNode) : intervalsOf l ≠ [] := by
  cases l with
  | nil => simp [intervalsOf]
  | cons b rest =>
      cases b with
      | sync => simp [intervalsOf]
      | runSet s =>
          cases hI : intervalsOf rest <;> simp [intervalsOf, hI]

lemma getLastD_of_ne_nil {α} {l : List α} (h : l ≠ []) (d1 d2 : α) :
    l.getLastD d1 = l.getLastD d2 := by
  rw [List.getLastD_eq_getLast?, List.getLastD_eq_getLast?,
    List.getLast?_eq_getLast l h]
  rfl

lemma intervalsOf_run_append_sync (ys : List BNode)
    (h : ∀ b ∈ ys, b ≠ BNode.sync) :
    intervalsOf (ys ++ [BNode.sync]) = [rowSets ys, []] := by
  induction ys with
  | nil => rfl
  | cons b ys ih =>
      cases b with
      | sync => exact absurd rfl (h BNode.sync (List.mem_cons_self _ _))
      | runSet s =>
          have ih' := ih (fun b hb => h b (List.mem_cons_of_mem _ hb))
          simp only [List.cons_append, intervalsOf, List.append_eq]
          rw [ih']
          simp [rowSets]

lemma intervalsOf_append_complete (xs ys : List BNode)
    (hx : (intervalsOf xs).getLastD [] = [])
    (hys : ∀ b ∈ ys, b ≠ BNode.sync) :
    intervalsOf (xs ++ (ys ++ [BNode.sync]))
      = (intervalsOf xs).dropLast ++ [rowSets ys, []] := by
  induction xs with
  | nil =>
      rw [List.nil_append, intervalsOf_run_append_sync ys hys]
      rfl
  | cons b xs ih =>
      cases b with
      | sync =>
          have hxne := intervalsOf_ne_nil xs
          have hx' : (intervalsOf xs).getLastD [] = [] := by
            have : intervalsOf (BNode.sync :: xs) = [] :: intervalsOf xs := rfl
            rw [this, List.getLastD_cons] at hx
            rw [getLastD_of_ne_nil hxne [] ([] : List SetInfo)]
            exact hx
          have : intervalsOf (BNode.sync :: (xs ++ (ys ++ [BNode.sync])))
              = [] :: intervalsOf (xs ++ (ys ++ [BNode.sync])) := rfl
          rw [List.cons_append, this, ih hx']
          have : intervalsOf (BNode.sync :: xs) = [] :: intervalsOf xs := rfl
          rw [this, List.dropLast_cons_of_ne_nil hxne]
          rfl
      | runSet s =>
          obtain ⟨iv, ivs, hI⟩ : ∃ iv ivs, intervalsOf xs = iv :: ivs := by
            cases hI : intervalsOf xs with
            | nil => exact absurd hI (intervalsOf_ne_nil xs)
            | cons iv ivs => exact ⟨iv, ivs, rfl⟩
          have hcons : intervalsOf (BNode.runSet s :: xs) = (s :: iv) :: ivs := by
            simp [intervalsOf, hI]
          have hivs : ivs ≠ [] := by
            intro hnil
            rw [hcons, hnil] at hx
            simp [List.getLastD] at hx
          have hx' : (intervalsOf xs).getLastD [] = [] := by
            rw [hcons, List.getLastD_cons] at hx
            rw [hI, List.getLastD_cons]
            rw [getLastD_of_ne_nil hivs iv (s :: iv)]
            exact hx
          have hstep : intervalsOf (BNode.runSet s :: (xs ++ (ys ++ [BNode.sync])))
              = (s :: iv) :: (ivs.dropLast ++ [rowSets ys, []]) := by
            have harg : intervalsOf (xs ++ (ys ++ [BNode.sync]))
                = iv :: (ivs.dropLast ++ [rowSets ys, []]) := by
              rw [ih hx', hI, List.dropLast_cons_of_ne_nil hivs]
              rfl
            simp [intervalsOf, harg]
          rw [List.cons_append, hstep, hcons, List.dropLast_cons_of_ne_nil hivs]
          rfl

end Eonix

namespace Eonix

lemma getD_dropLast_append2 {I : List (List SetInfo)} {k : Nat}
    (hlen : I.length = k + 1) (r : List SetInfo) (i : Nat) :
    (I.dropLast ++ [r, []]).getD i []
      = if i < k then I.getD i [] else if i = k then r else [] := by
  have hdl : I.dropLast.length = k := by
    rw [List.length_dropLast, hlen]
    omega
  by_cases hik : i < k
  · rw [if_pos hik, List.getD_eq_getElem?_getD,
      List.getElem?_append_left (by rw [hdl]; exact hik)]
    rw [List.dropLast_eq_take, List.getElem?_take, hlen]
    simp only [Nat.add_sub_cancel]
    rw [if_pos hik, ← List.getD_eq_getElem?_getD]
  · rw [if_neg hik]
    rw [List.getD_eq_getElem?_getD,
      List.getElem?_append_right (by rw [hdl]; omega), hdl]
    by_cases hik2 : i = k
    · subst hik2
      simp
    · rw [if_neg hik2]
      have h1 : i - k = 1 ∨ 2 ≤ i - k := by omega
      rcases h1 with h1 | h1
      · rw [h1]; rfl
      · rw [List.getElem?_eq_none (by simp; omega)]
        rfl

lemma flushPass_getD {n : Nat} (tree : List (List BNode)) (st : BuildState)
    {t : Nat} (ht : t < n) :
    (flushPass n tree st).getD t []
      = tree.getD t [] ++ (st.current.getD t [] ++ [BNode.sync]) := by
  rw [flushPass, List.getD_eq_getElem?_getD, List.getElem?_map,
    List.getElem?_range ht]
  simp [List.append_assoc]

/-- The cross-thread invariant of the emitted tree: all roots have the same
number of barrier intervals, every root's trailing interval is open and
empty, and system sets in the same interval on distinct threads never
conflict. -/
structure TreeInv (n k : Nat) (tree : List (List BNode)) : Prop where
  len : tree.length = n
  ivlen : ∀ t, t < n → (intervalsOf (tree.getD t [])).length = k + 1
  lastEmpty : ∀ t, t < n → (intervalsOf (tree.getD t [])).getLastD [] = []
  cross : ∀ t t', t < n → t' < n → t ≠ t' → ∀ i a b,
      a ∈ (intervalsOf (tree.getD t [])).getD i [] →
      b ∈ (intervalsOf (tree.getD t' [])).getD i [] →
      SetInfo.conflicts a b = false

lemma treeInv_init (n : Nat) : TreeInv n 0 (List.replicate n []) := by
  refine ⟨by simp, ?_, ?_, ?_⟩
  · intro t ht; rw [getD_replicate]; rfl
  · intro t ht; rw [getD_replicate]; rfl
  · intro t t' ht ht' hne i a b ha hb
    rw [getD_replicate] at ha
    have hz : (intervalsOf ([] : List BNode)).getD i [] = [] := by
      cases i <;> rfl
    rw [hz] at ha
    exact absurd ha (List.not_mem_nil a)

lemma flushPass_inv {n k : Nat} {tree : List (List BNode)} {st : BuildState}
    (hT : TreeInv n k tree) (hP : PassInv n st) :
    TreeInv n (k + 1) (flushPass n tree st) := by
  have hget : ∀ t, t < n → intervalsOf ((flushPass n tree st).getD t [])
      = (intervalsOf (tree.getD t [])).dropLast
        ++ [rowSets (st.current.getD t []), []] := by
    intro t ht
    rw [flushPass_getD tree st ht]
    exact intervalsOf_append_complete _ _ (hT.lastEmpty t ht) (hP.noSync t)
  refine ⟨by simp [flushPass], ?_, ?_, ?_⟩
  · intro t ht
    rw [hget t ht, List.length_append, List.length_dropLast, hT.ivlen t ht]
    rfl
  · intro t ht
    rw [hget t ht]
    rw [show (intervalsOf (tree.getD t [])).dropLast
          ++ [rowSets (st.current.getD t []), []]
        = ((intervalsOf (tree.getD t [])).dropLast
          ++ [rowSets (st.current.getD t [])]) ++ [[]] by simp]
    rw [List.getLastD_concat]
  · intro t t' ht ht' hne i a b ha hb
    rw [hget t ht, getD_dropLast_append2 (hT.ivlen t ht) _ i] at ha
    rw [hget t' ht', getD_dropLast_append2 (hT.ivlen t' ht') _ i] at hb
    by_cases h1 : i < k
    · rw [if_pos h1] at ha hb
      exact hT.cross t t' ht ht' hne i a b ha hb
    · rw [if_neg h1] at ha hb
      by_cases h2 : i = k
      · rw [if_pos h2] at ha hb
        rw [hP.rows t] at ha
        rw [hP.rows t'] at hb
        exact hP.cross t t' hne a ha b hb
      · rw [if_neg h2] at ha
        exact absurd ha (List.not_mem_nil a)

lemma buildLoop_inv (n maxTail : Nat) :
    ∀ (fuel : Nat) (systems : List SetInfo) (tree : List (List BNode)) (k : Nat),
      TreeInv n k tree →
      ∃ k', TreeInv n k' (buildLoop n maxTail fuel systems tree) := by
  intro fuel
  induction fuel with
  | zero => exact fun systems tree k h => ⟨k, h⟩
  | succ fuel ih =>
      intro systems tree k h
      rw [buildLoop]
      have hP : PassInv n (systems.foldl (processSet n maxTail) (initPass n)) :=
        foldl_processSet_inv n maxTail systems _ (passInv_init n)
      split_ifs with hempty
      · exact ⟨k + 1, flushPass_inv h hP⟩
      · exact ih _ _ (k + 1) (flushPass_inv h hP)

/-- C5: plan correctness.  In every execution plan produced by the graph
builder, whatever the thread count, `max_tail` and input list of system
sets, two system sets scheduled in the same barrier interval on distinct
threads never have conflicting footprints under `SystemInfo::conflicts`
(exclusive access to a kind against any access of the same kind, `World`
against everything, the conflict lifted when the `With`/`Without` filters
force disjoint archetypes); conflicting sets only ever share a thread or are
separated by a barrier. -/
theorem plan_no_conflicts_within_interval
    (n maxTail : Nat) (systems : List SetInfo) (t t' i : Nat)
    (ht : t < n) (ht' : t' < n) (hne : t ≠ t') (a b : SetInfo)
    (ha : a ∈ (intervalsOf ((buildGraphFrom n maxTail systems).getD t [])).getD i [])
    (hb : b ∈ (intervalsOf ((buildGraphFrom n maxTail systems).getD t' [])).getD i []) :
    SetInfo.conflicts a b = false := by
  rw [buildGraphFrom] at ha hb
  by_cases hsys : systems.isEmpty
  · rw [if_pos hsys] at ha
    have hz : (intervalsOf (([] : List (List BNode)).getD t [])).getD i [] = [] := by
      cases i <;> rfl
    rw [hz] at ha
    exact absurd ha (List.not_mem_nil a)
  · rw [if_neg hsys] at ha hb
    obtain ⟨k', hinv⟩ :=
      buildLoop_inv n maxTail (systems.length + 1) systems _ 0 (treeInv_init n)
    exact hinv.cross t t' ht ht' hne i a b ha hb

/-- A system set reading/writing only component kind `0` exclusively. -/
def setMut0 : SetInfo := ⟨[⟨[.pmut 0], []⟩], false⟩

/-- A system set reading/writing only component kind `1` exclusively. -/
def setMut1 : SetInfo := ⟨[⟨[.pmut 1], []⟩], false⟩

/-- Witness for C5: with two worker roots, the two non-conflicting sets land
on different threads in the first barrier interval of the built plan, and the
theorem yields their conflict-freedom. -/
theorem plan_no_conflicts_within_interval_witness :
    SetInfo.conflicts setMut0 setMut1 = false :=
  plan_no_conflicts_within_interval 2 8 [setMut0, setMut1] 0 1 0
    (by decide) (by decide) (by decide) setMut0 setMut1 (by decide) (by decide)

end Eonix

namespace Eonix

/-! ### Properties of `TableId` under the modelled hash -/

lemma addUnique_comm (z : TableIdBuilder) (x y : Nat) :
    TableIdBuilder.addUnique (TableIdBuilder.addUnique z x) y
      = TableIdBuilder.addUnique (TableIdBuilder.addUnique z y) x := by
  simp only [TableIdBuilder.addUnique, TableIdBuilder.mk.injEq]
  refine ⟨?_, ?_, trivial⟩
  · rw [Nat.lor_assoc, Nat.lor_assoc, Nat.lor_comm (hashK x) (hashK y)]
  · rw [Nat.mod_add_mod, Nat.mod_add_mod, Nat.add_right_comm]

lemma tableIdFromList_perm {l₁ l₂ : List Nat} (h : l₁.Perm l₂) :
    tableIdFromList l₁ = tableIdFromList l₂ := by
  rw [tableIdFromList, tableIdFromList,
    h.foldl_eq' (fun x _ y _ z => addUnique_comm z x y)]

lemma foldl_addUnique_sum (l : List Nat) :
    ∀ (b : TableIdBuilder), b.sumAcc < u64Mod →
      (l.foldl TableIdBuilder.addUnique b).sumAcc
        = (b.sumAcc + (l.map hashK).sum) % u64Mod := by
  induction l with
  | nil => intro b hb; simp [Nat.mod_eq_of_lt hb]
  | cons k l ih =>
      intro b hb
      rw [List.foldl_cons, ih _ (Nat.mod_lt _ (by norm_num [u64Mod]))]
      simp only [TableIdBuilder.addUnique, List.map_cons, List.sum_cons]
      rw [Nat.mod_add_mod]
      ring_nf

lemma tableIdFromList_sum (l : List Nat) :
    (tableIdFromList l).sum = (l.map hashK).sum % u64Mod := by
  rw [tableIdFromList, TableIdBuilder.finish,
    foldl_addUnique_sum l TableIdBuilder.new (by norm_num [TableIdBuilder.new, u64Mod])]
  simp [TableIdBuilder.new]

lemma sum_range_two_pow (n : Nat) : ∑ i in Finset.range n, 2 ^ i = 2 ^ n - 1 := by
  induction n with
  | zero => rfl
  | succ n ih =>
      rw [Finset.sum_range_succ, ih]
      have : 0 < 2 ^ n := Nat.pos_pow_of_pos n (by norm_num)
      have : 2 ^ (n + 1) = 2 ^ n * 2 := by ring
      omega

lemma sum_two_pow_lt {l : List Nat} (hnd : l.Nodup) (hsm : ∀ k ∈ l, k < 64) :
    (l.map (fun k => 2 ^ k)).sum < u64Mod := by
  rw [← List.sum_toFinset _ hnd]
  have hsub : l.toFinset ⊆ Finset.range 64 := by
    intro x hx
    rw [List.mem_toFinset] at hx
    exact Finset.mem_range.mpr (hsm x hx)
  calc l.toFinset.sum (fun k => 2 ^ k)
      ≤ ∑ i in Finset.range 64, 2 ^ i :=
        Finset.sum_le_sum_of_subset hsub
    _ = 2 ^ 64 - 1 := sum_range_two_pow 64
    _ < u64Mod := by norm_num [u64Mod]

lemma map_hashK_eq {l : List Nat} (hsm : ∀ k ∈ l, k < 64) :
    l.map hashK = l.map (fun k => 2 ^ k) := by
  refine List.map_congr_left ?_
  intro k hk
  rw [hashK, Nat.mod_eq_of_lt (hsm k hk)]

lemma sum_two_pow_inj {l₁ l₂ : List Nat} (h₁ : l₁.Nodup) (h₂ : l₂.Nodup)
    (heq : (l₁.map (fun k => 2 ^ k)).sum = (l₂.map (fun k => 2 ^ k)).sum) :
    l₁.toFinset = l₂.toFinset := by
  have hperm₁ : l₁.Perm (l₁.toFinset.sort (· ≤ ·)) :=
    List.perm_of_nodup_nodup_toFinset_eq h₁ (Finset.sort_nodup _ _)
      (by rw [Finset.sort_toFinset])
  have hperm₂ : l₂.Perm (l₂.toFinset.sort (· ≤ ·)) :=
    List.perm_of_nodup_nodup_toFinset_eq h₂ (Finset.sort_nodup _ _)
      (by rw [Finset.sort_toFinset])
  have hs₁ := (hperm₁.map (fun k => 2 ^ k)).sum_eq
  have hs₂ := (hperm₂.map (fun k => 2 ^ k)).sum_eq
  have hbit₁ := Nat.bitIndices_twoPowsum (Finset.sort_sorted_lt l₁.toFinset)
  have hbit₂ := Nat.bitIndices_twoPowsum (Finset.sort_sorted_lt l₂.toFinset)
  have hsort : l₁.toFinset.sort (· ≤ ·) = l₂.toFinset.sort (· ≤ ·) := by
    rw [← hbit₁, ← hbit₂, ← hs₁, ← hs₂, heq]
  have := congrArg List.toFinset hsort
  rwa [Finset.sort_toFinset, Finset.sort_toFinset] at this

/-- Injectivity of the content-addressed id on small distinct kind sets: the
`sum` field alone determines the set. -/
lemma tableIdFromList_inj {l₁ l₂ : List Nat}
    (h₁ : l₁.Nodup) (h₂ : l₂.Nodup)
    (hs₁ : ∀ k ∈ l₁, k < 64) (hs₂ : ∀ k ∈ l₂, k < 64)
    (heq : tableIdFromList l₁ = tableIdFromList l₂) :
    l₁.toFinset = l₂.toFinset := by
  have hsum := congrArg TableId.sum heq
  rw [tableIdFromList_sum, tableIdFromList_sum, map_hashK_eq hs₁, map_hashK_eq hs₂,
    Nat.mod_eq_of_lt (sum_two_pow_lt h₁ hs₁),
    Nat.mod_eq_of_lt (sum_two_pow_lt h₂ hs₂)] at hsum
  exact sum_two_pow_inj h₁ h₂ hsum

lemma tableIdFromList_ne_invalid {l : List Nat} (hne : l ≠ [])
    (hnd : l.Nodup) (hsm : ∀ k ∈ l, k < 64) :
    tableIdFromList l ≠ TableId.invalid := by
  intro h
  have hsum := congrArg TableId.sum h
  rw [tableIdFromList_sum, map_hashK_eq hsm,
    Nat.mod_eq_of_lt (sum_two_pow_lt hnd hsm)] at hsum
  cases l with
  | nil => exact hne rfl
  | cons k l =>
      simp only [List.map_cons, List.sum_cons, TableId.invalid] at hsum
      have : 0 < 2 ^ k := Nat.pos_pow_of_pos k (by norm_num)
      omega

/-- Two nodup small kind lists with equal element sets have equal ids. -/
lemma tableIdFromList_congr {l₁ l₂ : List Nat}
    (h₁ : l₁.Nodup) (h₂ : l₂.Nodup)
    (hmem : ∀ k, k ∈ l₁ ↔ k ∈ l₂) :
    tableIdFromList l₁ = tableIdFromList l₂ :=
  tableIdFromList_perm
    (List.perm_of_nodup_nodup_toFinset_eq h₁ h₂
      (Finset.ext fun k => by simp [List.mem_toFinset, hmem k]))

end Eonix

namespace Eonix

/-! ### Row-fold machinery of the `ComponentSet` table operations -/

lemma set_getElem_self {α} {l : List α} {i : Nat} (h : i < l.length) :
    l.set i l[i] = l := by
  apply List.ext_getElem?
  intro j
  by_cases hj : i = j
  · subst hj
    rw [List.getElem?_set_self', List.getElem?_eq_getElem h]
    rfl
  · rw [List.getElem?_set_ne hj]

lemma rowIdx_spec {t : Table} {k m : Nat} (h : t.rowIdx k = some m) :
    ∃ hm : m < t.rows.length, t.rows[m].tid = k := by
  rw [Table.rowIdx, List.findIdx?_eq_some_iff_getElem] at h
  obtain ⟨hm, hp, _⟩ := h
  exact ⟨hm, by simpa using hp⟩

lemma rowIdx_exists {t : Table} {k : Nat} (h : k ∈ t.kinds) :
    ∃ m, t.rowIdx k = some m := by
  rw [Table.kinds] at h
  obtain ⟨r, hr, htid⟩ := List.mem_map.1 h
  exact ⟨_, List.findIdx?_eq_some_of_exists ⟨r, hr, by simp [htid]⟩⟩

lemma kinds_set {t : Table} {m : Nat} {r' : Row}
    (hm : m < t.rows.length) (htid : r'.tid = t.rows[m].tid) :
    ({ t with rows := t.rows.set m r' } : Table).kinds = t.kinds := by
  show (t.rows.set m r').map Row.tid = t.rows.map Row.tid
  rw [List.map_set, htid]
  have hmm : m < (t.rows.map Row.tid).length := by simpa using hm
  have : Row.tid t.rows[m] = (t.rows.map Row.tid)[m] := by simp
  rw [this, set_getElem_self hmm]

lemma withRow_eq {t : Table} {k : Nat} {f : Row → Option Row} {m : Nat} {r r' : Row}
    (hm : t.rowIdx k = some m) (hr : t.rows[m]? = some r) (hf : f r = some r') :
    t.withRow k f = some { t with rows := t.rows.set m r' } := by
  rw [Table.withRow]
  simp [hm, hr, hf]

lemma foldlM_withRow_spec (g : Nat → Row → Option Row) (Pr : Row → Prop)
    (Q : Row → Row → Prop)
    (hg_tid : ∀ v r r', g v r = some r' → r'.tid = r.tid)
    (hg_grow : ∀ v r r', g v r = some r' → r.data.length ≤ r'.data.length)
    (hg_total : ∀ v r, Pr r → ∃ r', g v r = some r')
    (hPr_step : ∀ v r r', g v r = some r' → Pr r → Pr r')
    (hQ_step : ∀ v r r', Pr r → g v r = some r' → Q r r')
    (hQ_mono : ∀ r r' r'', Q r r' → r'.data.length ≤ r''.data.length → Q r r'') :
    ∀ (c : CompSet) (t : Table),
      t.kinds.Nodup →
      (∀ k ∈ CompSet.types c, k ∈ t.kinds) →
      (∀ r ∈ t.rows, Pr r) →
      ∃ t', c.foldlM (fun acc kv => acc.withRow kv.1 (g kv.2)) t = some t'
        ∧ t'.id = t.id ∧ t'.entities = t.entities ∧ t'.kinds = t.kinds
        ∧ (∀ (j : Nat) (r' : Row), t'.rows[j]? = some r' →
              ∃ r, t.rows[j]? = some r ∧ r'.tid = r.tid
              ∧ r.data.length ≤ r'.data.length ∧ Pr r'
              ∧ (r.tid ∈ CompSet.types c → Q r r')) := by
  intro c
  induction c with
  | nil =>
      intro t hnd hmem hPr
      refine ⟨t, rfl, rfl, rfl, rfl, ?_⟩
      intro j r' hj
      exact ⟨r', hj, rfl, Nat.le_refl _, hPr r' (List.getElem?_mem hj), by
        intro hin; simp [CompSet.types] at hin⟩
  | cons kv c' ih =>
      intro t hnd hmem hPr
      obtain ⟨m, hm⟩ := rowIdx_exists (hmem kv.1 (by simp [CompSet.types]))
      obtain ⟨hmlt, htid⟩ := rowIdx_spec hm
      have hr0 : t.rows[m]? = some t.rows[m] := List.getElem?_eq_getElem hmlt
      have hPr0 : Pr t.rows[m] := hPr _ (List.getElem_mem hmlt)
      obtain ⟨r0', hg⟩ := hg_total kv.2 t.rows[m] hPr0
      have htid' : r0'.tid = t.rows[m].tid := hg_tid _ _ _ hg
      have hstep := withRow_eq hm hr0 hg
      set t₁ : Table := { t with rows := t.rows.set m r0' } with ht₁
      have hkinds₁ : t₁.kinds = t.kinds := kinds_set hmlt htid'
      have hnd₁ : t₁.kinds.Nodup := by rw [hkinds₁]; exact hnd
      have hmem₁ : ∀ k ∈ CompSet.types c', k ∈ t₁.kinds := by
        intro k hk
        rw [hkinds₁]
        exact hmem k (by simp [CompSet.types] at hk ⊢; exact Or.inr hk)
      have hrows₁ : t₁.rows = t.rows.set m r0' := rfl
      have hself : t₁.rows[m]? = some r0' := by
        rw [hrows₁, List.getElem?_set_self', hr0]
        rfl
      have hPr₁ : ∀ r ∈ t₁.rows, Pr r := by
        intro r hrr
        rw [hrows₁] at hrr
        rcases List.mem_or_eq_of_mem_set hrr with h | h
        · exact hPr r h
        · subst h
          exact hPr_step _ _ _ hg hPr0
      obtain ⟨t', hfold, hid, hents, hkinds, hrows⟩ := ih t₁ hnd₁ hmem₁ hPr₁
      refine ⟨t', ?_, by rw [hid], by rw [hents], by rw [hkinds, hkinds₁], ?_⟩
      · rw [List.foldlM_cons, hstep]
        simpa using hfold
      · intro j r' hj
        obtain ⟨r₁, hj₁, htid₁, hgrow₁, hPr', hQ₁⟩ := hrows j r' hj
        by_cases hjm : m = j
        · subst hjm
          rw [hself] at hj₁
          have hr₁ : r₁ = r0' := by
            injection hj₁ with h
            exact h.symm
          subst hr₁
          refine ⟨t.rows[m], hr0, by rw [htid₁, htid'], ?_, hPr', ?_⟩
          · exact Nat.le_trans (hg_grow _ _ _ hg) hgrow₁
          · intro _
            exact hQ_mono _ _ _ (hQ_step _ _ _ hPr0 hg) hgrow₁
        · rw [hrows₁, List.getElem?_set_ne hjm] at hj₁
          refine ⟨r₁, hj₁, htid₁, hgrow₁, hPr', ?_⟩
          intro hin
          simp only [CompSet.types, List.map_cons, List.mem_cons] at hin
          rcases hin with hin | hin
          · exfalso
            obtain ⟨hjlt, hjr⟩ := List.getElem?_eq_some.mp hj₁
            have hjlt₂ : j < t.kinds.length := by
              simpa [Table.kinds] using hjlt
            have hmlt₂ : m < t.kinds.length := by
              simpa [Table.kinds] using hmlt
            have hkj : t.kinds[j] = t.kinds[m] := by
              simp only [Table.kinds, List.getElem_map]
              rw [hjr, htid]
              exact hin
            exact hjm ((hnd.getElem_inj_iff.mp hkj).symm)
          · exact hQ₁ (by simpa [CompSet.types] using hin)

end Eonix

namespace Eonix

lemma row_update_def (r : Row) (pos v : Nat) :
    r.update pos v
      = if pos ≤ r.data.length then some ⟨r.tid, listInsertAt r.data pos v⟩ else none := rfl

lemma row_update_some {r r' : Row} {pos v : Nat} (h : r.update pos v = some r') :
    pos ≤ r.data.length ∧ r' = ⟨r.tid, listInsertAt r.data pos v⟩ := by
  rw [row_update_def] at h
  split at h
  · cases h
    exact ⟨by assumption, rfl⟩
  · cases h

lemma listInsertAt_length {l : List Nat} {i : Nat} (a : Nat) (h : i ≤ l.length) :
    (listInsertAt l i a).length = l.length + 1 := by
  simp only [listInsertAt, List.length_append, List.length_take, List.length_cons,
    List.length_drop]
  omega

lemma pushToTable_spec {c : CompSet} {t : Table} (e : Entity)
    (hnd : t.kinds.Nodup) (hmem : ∀ k ∈ CompSet.types c, k ∈ t.kinds) :
    ∃ t', CompSet.pushToTable c t e = some t'
      ∧ t'.id = t.id ∧ t'.entities = t.entities ++ [e] ∧ t'.kinds = t.kinds
      ∧ (∀ (j : Nat) (r' : Row), t'.rows[j]? = some r' →
          ∃ r, t.rows[j]? = some r ∧ r'.tid = r.tid
          ∧ r.data.length ≤ r'.data.length
          ∧ (r.tid ∈ CompSet.types c → r.data.length + 1 ≤ r'.data.length)) := by
  obtain ⟨t₀, hfold, hid, hents, hkinds, hrows⟩ :=
    foldlM_withRow_spec (fun v r => some (r.push v)) (fun _ => True)
      (fun r r' => r.data.length + 1 ≤ r'.data.length)
      (fun v r r' h => by cases h; simp [Row.push])
      (fun v r r' h => by cases h; simp [Row.push])
      (fun v r _ => ⟨r.push v, rfl⟩)
      (fun _ _ _ _ _ => trivial)
      (fun v r r' _ h => by cases h; simp [Row.push])
      (fun r r' r'' h1 h2 => Nat.le_trans h1 h2)
      c t hnd hmem (fun _ _ => trivial)
  refine ⟨{ t₀ with entities := t₀.entities ++ [e] }, ?_, hid, by rw [hents], hkinds, ?_⟩
  · rw [CompSet.pushToTable, hfold]
    rfl
  · intro j r' hj
    obtain ⟨r, hr, htid, hgrow, _, hQ⟩ := hrows j r' hj
    exact ⟨r, hr, htid, hgrow, hQ⟩

lemma updateRows_spec {c : CompSet} {t : Table} {pos : Nat}
    (hnd : t.kinds.Nodup) (hmem : ∀ k ∈ CompSet.types c, k ∈ t.kinds)
    (hpos : ∀ r ∈ t.rows, pos ≤ r.data.length) :
    ∃ t', CompSet.updateRows c t pos = some t'
      ∧ t'.id = t.id ∧ t'.entities = t.entities ∧ t'.kinds = t.kinds
      ∧ (∀ (j : Nat) (r' : Row), t'.rows[j]? = some r' →
          ∃ r, t.rows[j]? = some r ∧ r'.tid = r.tid
          ∧ r.data.length ≤ r'.data.length) := by
  obtain ⟨t₀, hfold, hid, hents, hkinds, hrows⟩ :=
    foldlM_withRow_spec (fun v r => r.update pos v)
      (fun r => pos ≤ r.data.length) (fun _ _ => True)
      (fun v r r' h => by
        obtain ⟨hle, rfl⟩ := row_update_some h
        rfl)
      (fun v r r' h => by
        obtain ⟨hle, rfl⟩ := row_update_some h
        simp only
        rw [listInsertAt_length _ hle]
        omega)
      (fun v r hp => ⟨⟨r.tid, listInsertAt r.data pos v⟩, by
        show r.update pos v = _
        rw [row_update_def, if_pos hp]⟩)
      (fun v r r' h hp => by
        obtain ⟨hle, rfl⟩ := row_update_some h
        simp only
        rw [listInsertAt_length _ hle]
        omega)
      (fun _ _ _ _ _ => trivial)
      (fun _ _ _ _ _ => trivial)
      c t hnd hmem hpos
  refine ⟨t₀, hfold, hid, hents, hkinds, ?_⟩
  intro j r' hj
  obtain ⟨r, hr, htid, hgrow, _, _⟩ := hrows j r' hj
  exact ⟨r, hr, htid, hgrow⟩

lemma pushOrUpdateRows_spec {c : CompSet} {t : Table} {pos : Nat}
    (hnd : t.kinds.Nodup) (hmem : ∀ k ∈ CompSet.types c, k ∈ t.kinds)
    (hpos : ∀ r ∈ t.rows, pos ≤ r.data.length) :
    ∃ t', CompSet.pushOrUpdateRows c t pos = some t'
      ∧ t'.id = t.id ∧ t'.entities = t.entities ∧ t'.kinds = t.kinds
      ∧ (∀ (j : Nat) (r' : Row), t'.rows[j]? = some r' →
          ∃ r, t.rows[j]? = some r ∧ r'.tid = r.tid
          ∧ r.data.length ≤ r'.data.length
          ∧ (r.tid ∈ CompSet.types c → pos + 1 ≤ r'.data.length)) := by
  obtain ⟨t₀, hfold, hid, hents, hkinds, hrows⟩ :=
    foldlM_withRow_spec (fun v r => some (r.pushOrUpdate pos v))
      (fun r => pos ≤ r.data.length) (fun r r' => pos + 1 ≤ r'.data.length)
      (fun v r r' h => by
        cases h
        rw [Row.pushOrUpdate]
        split <;> rfl)
      (fun v r r' h => by
        cases h
        rw [Row.pushOrUpdate]
        split <;> simp)
      (fun v r _ => ⟨r.pushOrUpdate pos v, rfl⟩)
      (fun v r r' h hp => by
        cases h
        rw [Row.pushOrUpdate]
        split <;> simp <;> omega)
      (fun v r r' hp h => by
        cases h
        rw [Row.pushOrUpdate]
        split
        · simp only [List.length_set]
          omega
        · simp only [List.length_append, List.length_cons, List.length_nil]
          omega)
      (fun r r' r'' h1 h2 => Nat.le_trans h1 h2)
      c t hnd hmem hpos
  refine ⟨t₀, hfold, hid, hents, hkinds, ?_⟩
  intro j r' hj
  obtain ⟨r, hr, htid, hgrow, _, hQ⟩ := hrows j r' hj
  exact ⟨r, hr, htid, hgrow, hQ⟩

end Eonix

namespace Eonix

/-! ### Success-shape lemmas

Whenever a fallible table operation returns `some`, the table's id and kind
list are unchanged (a failure is a panic in the source, so callers that
return normally witness these shapes).  They drive the archetype-id analysis
of the add/remove round trip. -/

lemma withRow_some_shape {t t' : Table} {k : Nat} {f : Row → Option Row}
    (hf : ∀ r r', f r = some r' → r'.tid = r.tid)
    (h : t.withRow k f = some t') :
    t'.id = t.id ∧ t'.entities = t.entities ∧ t'.kinds = t.kinds := by
  rw [Table.withRow] at h
  simp only [Option.bind_eq_bind, Option.bind_eq_some] at h
  obtain ⟨m, hm, r, hr, r', hfr, ht'⟩ := h
  injection ht' with ht'
  subst ht'
  refine ⟨rfl, rfl, ?_⟩
  obtain ⟨hlt, hgetr⟩ := List.getElem?_eq_some.mp hr
  exact kinds_set hlt (by rw [hf r r' hfr, hgetr])

lemma foldlM_withRow_shape (f : Nat × Nat → Row → Option Row)
    (hf : ∀ kv r r', f kv r = some r' → r'.tid = r.tid) :
    ∀ (c : CompSet) (t t' : Table),
      c.foldlM (fun acc kv => acc.withRow kv.1 (f kv)) t = some t' →
      t'.id = t.id ∧ t'.entities = t.entities ∧ t'.kinds = t.kinds := by
  intro c
  induction c with
  | nil =>
      intro t t' h
      simp only [List.foldlM_nil] at h
      injection h with h
      subst h
      exact ⟨rfl, rfl, rfl⟩
  | cons kv c ih =>
      intro t t' h
      rw [List.foldlM_cons] at h
      simp only [Option.bind_eq_bind, Option.bind_eq_some] at h
      obtain ⟨t₁, h₁, h₂⟩ := h
      obtain ⟨hid₁, hents₁, hkinds₁⟩ := withRow_some_shape (hf kv) h₁
      obtain ⟨hid₂, hents₂, hkinds₂⟩ := ih t₁ t' h₂
      exact ⟨hid₂.trans hid₁, hents₂.trans hents₁, hkinds₂.trans hkinds₁⟩

lemma row_swapRemove_some {r r' : Row} {pos : Nat}
    (h : r.swapRemove pos = some r') :
    pos < r.data.length ∧ r' = ⟨r.tid, listSwapRemoveAt r.data pos⟩ := by
  rw [Row.swapRemove] at h
  split at h
  · cases h
    exact ⟨by assumption, rfl⟩
  · cases h

lemma row_moveEntity_some {r dst r' dr' : Row} {pos : Nat}
    (h : r.moveEntity dst pos = some (r', dr')) :
    r'.tid = r.tid ∧ dr'.tid = dst.tid := by
  rw [Row.moveEntity] at h
  cases hv : r.data[pos]? with
  | none => rw [hv] at h; cases h
  | some v =>
      rw [hv] at h
      simp only [Option.bind_eq_bind, Option.bind_eq_some] at h
      obtain ⟨r₁, hr₁, hpair⟩ := h
      obtain ⟨h1, h2⟩ := Prod.mk.injEq .. ▸ (Option.some.injEq _ _ ▸ hpair)
      subst h1
      subst h2
      exact ⟨by rw [(row_swapRemove_some hr₁).2], rfl⟩

lemma update_some_shape {t t' : Table} {e : Entity} {c : CompSet}
    (h : t.update e c = some t') :
    t'.id = t.id ∧ t'.entities = t.entities ∧ t'.kinds = t.kinds := by
  rw [Table.update] at h
  simp only [Option.bind_eq_bind, Option.bind_eq_some] at h
  obtain ⟨pos, _, hfold⟩ := h
  rw [CompSet.updateRows] at hfold
  exact foldlM_withRow_shape (fun kv r => r.update pos kv.2)
    (fun kv r r' hh => by obtain ⟨_, rfl⟩ := row_update_some hh; rfl)
    c t t' hfold

lemma updatePartial_some_shape {t t' : Table} {e : Entity} {c : CompSet}
    (h : t.updatePartial e c = some t') :
    t'.id = t.id ∧ t'.entities = t.entities ∧ t'.kinds = t.kinds := by
  rw [Table.updatePartial] at h
  simp only [Option.bind_eq_bind, Option.bind_eq_some] at h
  obtain ⟨pos, _, hfold⟩ := h
  rw [CompSet.updateRows] at hfold
  exact foldlM_withRow_shape (fun kv r => r.update pos kv.2)
    (fun kv r r' hh => by obtain ⟨_, rfl⟩ := row_update_some hh; rfl)
    c t t' hfold

lemma push_some_shape {t t' : Table} {e : Entity} {c : CompSet}
    (h : t.push e c = some t') :
    t'.id = t.id ∧ t'.kinds = t.kinds := by
  rw [Table.push, CompSet.pushToTable] at h
  simp only [Option.bind_eq_bind, Option.bind_eq_some] at h
  obtain ⟨t₁, hfold, ht'⟩ := h
  injection ht' with ht'
  subst ht'
  obtain ⟨hid, _, hkinds⟩ := foldlM_withRow_shape (fun kv r => some (r.push kv.2))
    (fun kv r r' hh => by cases hh; rfl) c t t₁ hfold
  exact ⟨hid, hkinds⟩

lemma pushMissingOrUpdate_some_shape {t t' : Table} {e : Entity} {c : CompSet}
    (h : t.pushMissingOrUpdate e c = some t') :
    t'.id = t.id ∧ t'.entities = t.entities ∧ t'.kinds = t.kinds := by
  rw [Table.pushMissingOrUpdate] at h
  simp only [Option.bind_eq_bind, Option.bind_eq_some] at h
  obtain ⟨pos, _, hfold⟩ := h
  rw [CompSet.pushOrUpdateRows] at hfold
  exact foldlM_withRow_shape (fun kv r => some (r.pushOrUpdate pos kv.2))
    (fun kv r r' hh => by cases hh; rw [Row.pushOrUpdate]; split <;> rfl)
    c t t' hfold

lemma mapM_swapRemove_tids {pos : Nat} :
    ∀ {rs rs' : List Row},
      rs.mapM (fun r => r.swapRemove pos) = some rs' →
      rs'.map Row.tid = rs.map Row.tid := by
  intro rs
  induction rs with
  | nil =>
      intro rs' h
      simp only [List.mapM_nil] at h
      injection h with h
      subst h
      rfl
  | cons r rs ih =>
      intro rs' h
      rw [List.mapM_cons] at h
      simp only [Option.bind_eq_bind, Option.bind_eq_some, Option.pure_def,
        Option.some.injEq] at h
      obtain ⟨r', hr', rest, hrest, ht⟩ := h
      subst ht
      simp only [List.map_cons, (row_swapRemove_some hr').2, ih hrest]

lemma table_deleteEntity_shape {t t' : Table} {e : Entity}
    (h : t.deleteEntity e = some t') :
    t'.id = t.id ∧ t'.kinds = t.kinds := by
  rw [Table.deleteEntity] at h
  simp only [Option.bind_eq_bind, Option.bind_eq_some] at h
  obtain ⟨pos, _, rows', hrows, hif⟩ := h
  split at hif
  · cases hif
    exact ⟨rfl, by
      show rows'.map Row.tid = t.rows.map Row.tid
      exact mapM_swapRemove_tids hrows⟩
  · cases hif

lemma foldlM_moveRowsStep_shape {b : Bool} {pos : Nat} :
    ∀ {rs : List Row} {acc : List Row} {dst : Table} {out : List Row × Table},
      rs.foldlM (Table.moveRowsStep b pos) (acc, dst) = some out →
      out.1.map Row.tid = acc.map Row.tid ++ rs.map Row.tid
      ∧ out.2.id = dst.id ∧ out.2.entities = dst.entities
      ∧ out.2.kinds = dst.kinds := by
  intro rs
  induction rs with
  | nil =>
      intro acc dst out h
      simp only [List.foldlM_nil] at h
      injection h with h
      subst h
      exact ⟨by simp, rfl, rfl, rfl⟩
  | cons r rs ih =>
      intro acc dst out h
      rw [List.foldlM_cons] at h
      simp only [Option.bind_eq_bind, Option.bind_eq_some] at h
      obtain ⟨acc₁, hstep, hrest⟩ := h
      rw [Table.moveRowsStep] at hstep
      cases hidx : dst.rowIdx r.tid with
      | some j =>
          rw [hidx] at hstep
          simp only [Option.bind_eq_bind, Option.bind_eq_some] at hstep
          obtain ⟨dr, hdr, x, hx, hpair⟩ := hstep
          obtain ⟨r', dr'⟩ := x
          simp only [Option.some.injEq] at hpair
          subst hpair
          obtain ⟨hmap, hid, hents, hkinds⟩ := ih hrest
          obtain ⟨hrt, hdrt⟩ := row_moveEntity_some hx
          obtain ⟨hjlt, hjget⟩ := List.getElem?_eq_some.mp hdr
          refine ⟨?_, hid, hents, ?_⟩
          · rw [hmap]
            simp [hrt, List.append_assoc]
          · rw [hkinds]
            exact kinds_set hjlt (by rw [hdrt, hjget])
      | none =>
          rw [hidx] at hstep
          cases b with
          | false => cases hstep
          | true =>
              simp only [Option.bind_eq_bind, Option.bind_eq_some,
                if_true] at hstep
              obtain ⟨r', hr', hacc⟩ := hstep
              simp only [Option.some.injEq] at hacc
              subst hacc
              obtain ⟨hmap, hid, hents, hkinds⟩ := ih hrest
              refine ⟨?_, hid, hents, hkinds⟩
              rw [hmap]
              simp [(row_swapRemove_some hr').2, List.append_assoc]

lemma moveEntityUp_some_shape {t dst : Table} {e : Entity}
    {out : Table × Table}
    (h : t.moveEntityUp dst e = some out) :
    out.1.id = t.id ∧ out.1.kinds = t.kinds
    ∧ out.2.id = dst.id ∧ out.2.kinds = dst.kinds := by
  rw [Table.moveEntityUp] at h
  simp only [Option.bind_eq_bind, Option.bind_eq_some] at h
  obtain ⟨pos, _, x, hfold, hif⟩ := h
  obtain ⟨rows', dst'⟩ := x
  obtain ⟨hmap, hid, _, hkinds⟩ := foldlM_moveRowsStep_shape hfold
  split at hif
  · cases hif
    refine ⟨rfl, ?_, hid, hkinds⟩
    show rows'.map Row.tid = t.rows.map Row.tid
    simpa using hmap
  · cases hif

lemma moveEntityDown_some_shape {t dst : Table} {e : Entity}
    {out : Table × Table}
    (h : t.moveEntityDown dst e = some out) :
    out.1.id = t.id ∧ out.1.kinds = t.kinds
    ∧ out.2.id = dst.id ∧ out.2.kinds = dst.kinds := by
  rw [Table.moveEntityDown] at h
  simp only [Option.bind_eq_bind, Option.bind_eq_some] at h
  obtain ⟨pos, _, x, hfold, hif⟩ := h
  obtain ⟨rows', dst'⟩ := x
  obtain ⟨hmap, hid, _, hkinds⟩ := foldlM_moveRowsStep_shape hfold
  split at hif
  · cases hif
    refine ⟨rfl, ?_, hid, hkinds⟩
    show rows'.map Row.tid = t.rows.map Row.tid
    simpa using hmap
  · cases hif

end Eonix

namespace Eonix

/-! ### Archetype-id well-formedness

`TableWF` is the invariant the storage layer maintains for every table: the
content-addressed id is the id of its kind list, the kinds are distinct, and
(an artefact of the `hashK` hash model) every kind is below 64.  Together
with `tableIdFromList_inj` this pins a table's kind multiset from its id. -/

abbrev TableWF (t : Table) : Prop :=
  t.id = tableIdFromList t.kinds ∧ t.kinds.Nodup ∧ ∀ k ∈ t.kinds, k < 64

lemma kinds_perm_of_id_eq {t : Table} {L : List Nat} (hWF : TableWF t)
    (hL : L.Nodup) (hLs : ∀ k ∈ L, k < 64)
    (hid : t.id = tableIdFromList L) :
    t.kinds.Perm L := by
  obtain ⟨hid₀, hnd, hsm⟩ := hWF
  have hfin := tableIdFromList_inj hnd hL hsm hLs (hid₀.symm.trans hid)
  exact List.perm_of_nodup_nodup_toFinset_eq hnd hL hfin

lemma tableIdx_id {s : EntityComponents} {tid : TableId} {i : Nat} {tab : Table}
    (hi : s.tableIdx tid = some i) (htab : s.tables[i]? = some tab) :
    tab.id = tid := by
  rw [EntityComponents.tableIdx, List.findIdx?_eq_some_iff_getElem] at hi
  obtain ⟨hlt, hp, _⟩ := hi
  obtain ⟨_, hget⟩ := List.getElem?_eq_some.mp htab
  rw [hget] at hp
  exact beq_iff_eq.mp hp

lemma tableId_isInvalid_iff {t : TableId} :
    t.isInvalid = true ↔ t = TableId.invalid := by
  rw [TableId.isInvalid, TableId.invalid]
  cases t with
  | mk s x =>
      simp only [Bool.and_eq_true, beq_iff_eq, TableId.mk.injEq]

lemma tableIdFromList_isInvalid_false {l : List Nat} (hne : l ≠ [])
    (hnd : l.Nodup) (hsm : ∀ k ∈ l, k < 64) :
    (tableIdFromList l).isInvalid = false := by
  rw [Bool.eq_false_iff]
  intro h
  exact tableIdFromList_ne_invalid hne hnd hsm (tableId_isInvalid_iff.mp h)

/-! ### Kind-list algebra of the table-to-table moves -/

lemma filter_not_contains_self (l : List Nat) :
    l.filter (fun k => !l.contains k) = [] := by
  rw [List.filter_eq_nil_iff]
  intro k hk
  simp [hk]

lemma contains_iff_mem {l : List Nat} {k : Nat} :
    l.contains k = true ↔ k ∈ l := by
  simp

lemma contains_eq_false_iff {l : List Nat} {k : Nat} :
    l.contains k = false ↔ k ∉ l := by
  simp

lemma union_nodup {a b : List Nat} (ha : a.Nodup) (hb : b.Nodup) :
    (a ++ b.filter (fun k => !a.contains k)).Nodup := by
  rw [List.nodup_append]
  refine ⟨ha, hb.filter _, ?_⟩
  intro k hka hkf
  rw [List.mem_filter] at hkf
  have := hkf.2
  simp [hka] at this

lemma union_perm {a b : List Nat} (ha : a.Nodup) (hb : b.Nodup) :
    (a ++ b.filter (fun k => !a.contains k)).Perm
      (b ++ a.filter (fun k => !b.contains k)) := by
  refine List.perm_of_nodup_nodup_toFinset_eq (union_nodup ha hb)
    (union_nodup hb ha) ?_
  ext k
  simp only [List.toFinset_append, Finset.mem_union, List.mem_toFinset,
    List.mem_filter]
  simp only [Bool.not_eq_true', contains_eq_false_iff]
  tauto

lemma union_filter_left {a b : List Nat} :
    ((a ++ b.filter (fun k => !a.contains k)).filter
        (fun k => !a.contains k))
      = b.filter (fun k => !a.contains k) := by
  rw [List.filter_append, filter_not_contains_self, List.nil_append,
    List.filter_filter]
  refine List.filter_congr ?_
  intro k _
  rw [Bool.and_self]

/-- The kind list of `ExtendableTable::extend_rows`: the base kinds followed
by the added kinds not already present (`ks` distinct). -/
lemma extendRows_fold_tids :
    ∀ (ks : List Nat) (acc : List Row), ks.Nodup →
      ((ks.foldl (fun acc k =>
          if acc.all (fun r => r.tid != k) then acc ++ [Row.new k] else acc)
        acc).map Row.tid)
      = acc.map Row.tid ++ ks.filter (fun k => !(acc.map Row.tid).contains k) := by
  intro ks
  induction ks with
  | nil => intro acc _; simp
  | cons k ks ih =>
      intro acc hnd
      rw [List.foldl_cons]
      by_cases hk : k ∈ acc.map Row.tid
      · have hall : (acc.all (fun r => r.tid != k)) = false := by
          rw [List.all_eq_false]
          obtain ⟨r, hr, htid⟩ := List.mem_map.1 hk
          exact ⟨r, hr, by simp [htid]⟩
        rw [if_neg (by rw [hall]; simp)]
        rw [ih acc hnd.of_cons]
        congr 1
        rw [List.filter_cons, if_neg (by rw [contains_iff_mem.mpr hk]; decide)]
      · have hall : (acc.all (fun r => r.tid != k)) = true := by
          rw [List.all_eq_true]
          intro r hr
          have hne : r.tid ≠ k := fun hEq => hk (hEq ▸ List.mem_map_of_mem _ hr)
          simp [hne]
        have hcf : (acc.map Row.tid).contains k = false := by
          rw [contains_eq_false_iff]
          exact hk
        rw [if_pos hall]
        rw [ih (acc ++ [Row.new k]) hnd.of_cons]
        have hmapp : (acc ++ [Row.new k]).map Row.tid
            = acc.map Row.tid ++ [k] := by simp [Row.new]
        rw [hmapp, List.filter_cons, if_pos (by rw [hcf]; rfl)]
        have hfeq : ks.filter (fun x => !((acc.map Row.tid ++ [k]).contains x))
            = ks.filter (fun x => !((acc.map Row.tid).contains x)) := by
          refine List.filter_congr ?_
          intro x hx
          have hxk : x ≠ k := fun hEq => (List.nodup_cons.mp hnd).1 (hEq ▸ hx)
          have hca : (acc.map Row.tid ++ [k]).contains x
              = (acc.map Row.tid).contains x := by
            by_cases hxm : x ∈ acc.map Row.tid
            · rw [contains_iff_mem.mpr hxm,
                contains_iff_mem.mpr (List.mem_append_left _ hxm)]
            · have h1 : (acc.map Row.tid).contains x = false :=
                contains_eq_false_iff.mpr hxm
              have h2 : (acc.map Row.tid ++ [k]).contains x = false := by
                rw [contains_eq_false_iff]
                intro hc
                rcases List.mem_append.mp hc with h | h
                · exact hxm h
                · exact hxk (List.mem_singleton.mp h)
              rw [h1, h2]
          rw [hca]
        rw [hfeq]
        simp [List.append_assoc]

lemma cloneEmpty_tids (rs : List Row) :
    (rs.map Row.cloneEmpty).map Row.tid = rs.map Row.tid := by
  rw [List.map_map]
  rfl

/-- Kinds of the fresh union table built in the `add_components` move
branch. -/
lemma extend_finish_kinds {t : Table} {u : TableId} {ks : List Nat}
    (hnd : ks.Nodup) :
    (((t.getExtendable u).extendRows ks).finish).kinds
      = t.kinds ++ ks.filter (fun k => !t.kinds.contains k) := by
  show ((ks.foldl _ ((t.getExtendable u).rows)).map Row.tid) = _
  rw [Table.getExtendable]
  rw [extendRows_fold_tids ks _ hnd, cloneEmpty_tids]
  rfl

lemma map_tid_filter (p : Nat → Bool) (rs : List Row) :
    (rs.filter (fun r => p r.tid)).map Row.tid = (rs.map Row.tid).filter p := by
  induction rs with
  | nil => rfl
  | cons r rs ih =>
      rw [List.filter_cons, List.map_cons, List.filter_cons]
      by_cases h : p r.tid = true
      · rw [if_pos h, if_pos h, List.map_cons, ih]
      · rw [if_neg h, if_neg h, ih]

/-- Kinds of the fresh shrunk table built in the `remove_component` move
branch. -/
lemma remove_finish_kinds {t : Table} {u : TableId} {ks : List Nat} :
    (((t.getExtendable u).removeRows ks).finish).kinds
      = t.kinds.filter (fun k => !ks.contains k) := by
  show ((t.rows.map Row.cloneEmpty).filter
      (fun r => !ks.contains r.tid)).map Row.tid = _
  rw [map_tid_filter (fun k => !ks.contains k) (t.rows.map Row.cloneEmpty),
    cloneEmpty_tids]
  rfl

lemma extend_finish_id {t : Table} {u : TableId} {ks : List Nat} :
    (((t.getExtendable u).extendRows ks).finish).id = u := rfl

lemma remove_finish_id {t : Table} {u : TableId} {ks : List Nat} :
    (((t.getExtendable u).removeRows ks).finish).id = u := rfl

end Eonix

namespace Eonix

/-- `remove_component` on a live entity whose directory id is the id of the
nodup small kind list `L`: the new directory id is the id of `L` minus the
removed kinds, or the invalid id when nothing remains.  The call's success is
a hypothesis (in the source the failure paths panic). -/
lemma removeComponent_dir {s s₂ : EntityComponents} {e : Entity}
    {ks : List Nat} {gen : Generation} {L : List Nat}
    (hdir : s.entities[e.id]? = some (gen, tableIdFromList L))
    (hgen : e.generation = gen) (hvalid : gen.isInvalid = false)
    (hWF : ∀ t ∈ s.tables, TableWF t)
    (hLnd : L.Nodup) (hLsm : ∀ k ∈ L, k < 64) (hLne : L ≠ [])
    (hrem : s.removeComponent e ks = some s₂) :
    s₂.entities[e.id]? = some (gen,
      if (L.filter (fun k => !ks.contains k)).isEmpty then TableId.invalid
      else tableIdFromList (L.filter (fun k => !ks.contains k))) := by
  rw [EntityComponents.removeComponent, hdir] at hrem
  dsimp only at hrem
  have hc1 : ¬((e.generation != gen || gen.isInvalid) = true) := by
    rw [hgen, bne_self_eq_false, hvalid]
    decide
  rw [if_neg hc1] at hrem
  have hc2 : ¬((tableIdFromList L).isInvalid = true) := by
    rw [tableIdFromList_isInvalid_false hLne hLnd hLsm]
    decide
  rw [if_neg hc2] at hrem
  simp only [Option.bind_eq_bind, Option.bind_eq_some] at hrem
  obtain ⟨ci, hci, cur, hcur, hbody⟩ := hrem
  have hcurWF : TableWF cur := hWF cur (List.getElem?_mem hcur)
  have hcurid : cur.id = tableIdFromList L := tableIdx_id hci hcur
  have hperm : cur.kinds.Perm L := kinds_perm_of_id_eq hcurWF hLnd hLsm hcurid
  have hfperm : (cur.kinds.filter (fun k => !ks.contains k)).Perm
      (L.filter (fun k => !ks.contains k)) := hperm.filter _
  cases hn : cur.kinds.filter (fun k => !ks.contains k) with
  | nil =>
      rw [hn] at hbody hfperm
      have hLf : L.filter (fun k => !ks.contains k) = [] :=
        hfperm.symm.eq_nil
      rw [if_pos (show ([] : List Nat).isEmpty = true from rfl)] at hbody
      simp only [Option.bind_eq_bind, Option.bind_eq_some] at hbody
      obtain ⟨cur', hdel, hs₂⟩ := hbody
      injection hs₂ with hs₂
      subst hs₂
      show (s.entities.set e.id (gen, TableId.invalid))[e.id]? = _
      rw [List.getElem?_set_self', hdir, hLf]
      rfl
  | cons a as =>
      rw [hn] at hbody hfperm
      obtain ⟨b, bs, hLf⟩ : ∃ b bs,
          L.filter (fun k => !ks.contains k) = b :: bs := by
        cases hL2 : L.filter (fun k => !ks.contains k) with
        | nil =>
            rw [hL2] at hfperm
            exact absurd hfperm.length_eq (by simp)
        | cons b bs => exact ⟨b, bs, rfl⟩
      rw [hLf] at hfperm
      rw [if_neg (by simp)] at hbody
      cases hu : s.tableIdx (tableIdFromList (a :: as)) with
      | none =>
          rw [hu] at hbody
          dsimp only at hbody
          split at hbody
          · cases hbody
          · simp only [Option.bind_eq_bind, Option.bind_eq_some] at hbody
            obtain ⟨curT, _, tgtT, _, x, _, hs₂⟩ := hbody
            obtain ⟨cur', tgt'⟩ := x
            injection hs₂ with hs₂
            subst hs₂
            show (s.entities.set e.id (gen, tableIdFromList (a :: as)))[e.id]?
              = _
            rw [List.getElem?_set_self', hdir, hLf, if_neg (by simp)]
            simp only [Option.map_some]
            exact congrArg _ (congrArg _ (tableIdFromList_perm hfperm))
      | some j =>
          rw [hu] at hbody
          dsimp only at hbody
          split at hbody
          · cases hbody
          · simp only [Option.bind_eq_bind, Option.bind_eq_some] at hbody
            obtain ⟨curT, _, tgtT, _, x, _, hs₂⟩ := hbody
            obtain ⟨cur', tgt'⟩ := x
            injection hs₂ with hs₂
            subst hs₂
            show (s.entities.set e.id (gen, tableIdFromList (a :: as)))[e.id]?
              = _
            rw [List.getElem?_set_self', hdir, hLf, if_neg (by simp)]
            simp only [Option.map_some]
            exact congrArg _ (congrArg _ (tableIdFromList_perm hfperm))

end Eonix

namespace Eonix

lemma table_new_kinds (ks : List Nat) : (Table.new ks).kinds = ks := by
  show (ks.map Row.new).map Row.tid = ks
  rw [List.map_map]
  exact List.map_id ks

lemma containsAll_sub {t : Table} {ks : List Nat}
    (h : t.containsAll ks = true) : ∀ k ∈ ks, k ∈ t.kinds := by
  rw [Table.containsAll, List.all_eq_true] at h
  intro k hk
  have := h k hk
  rw [List.any_eq_true] at this
  obtain ⟨r, hr, hbeq⟩ := this
  rw [Table.kinds]
  exact List.mem_map.mpr ⟨r, hr, beq_iff_eq.mp hbeq⟩

/-- `add_components` on a live entity: the new directory id is the id of a
nodup small kind list `L₁` whose part outside `C`'s kinds is (a permutation
of) the pre-add kinds outside `C`'s kinds, and every table of the new state
is well formed.  The pre-add kind list `P` is empty when the directory id was
invalid, else the kinds of the entity's table.  The call's success is a
hypothesis (in the source the failure paths panic). -/
lemma addComponents_dir {s s₁ : EntityComponents} {e : Entity} {c : CompSet}
    {gen : Generation} {t₀ : TableId} {P : List Nat}
    (hdir : s.entities[e.id]? = some (gen, t₀))
    (hgen : e.generation = gen) (hvalid : gen.isInvalid = false)
    (hWF : ∀ t ∈ s.tables, TableWF t)
    (hcne : CompSet.types c ≠ [])
    (hcnd : (CompSet.types c).Nodup)
    (hcsm : ∀ k ∈ CompSet.types c, k < 64)
    (hP : (t₀.isInvalid = true ∧ P = [])
        ∨ (t₀.isInvalid = false ∧ ∃ ci cur, s.tableIdx t₀ = some ci
            ∧ s.tables[ci]? = some cur ∧ P = cur.kinds))
    (hadd : s.addComponents e c = some s₁) :
    ∃ L₁, s₁.entities[e.id]? = some (gen, tableIdFromList L₁)
      ∧ (∀ t ∈ s₁.tables, TableWF t)
      ∧ L₁.Nodup ∧ (∀ k ∈ L₁, k < 64) ∧ L₁ ≠ []
      ∧ (L₁.filter (fun k => !(CompSet.types c).contains k)).Perm
          (P.filter (fun k => !(CompSet.types c).contains k)) := by
  rw [EntityComponents.addComponents, hdir] at hadd
  dsimp only at hadd
  have hc1 : ¬((e.generation != gen || gen.isInvalid) = true) := by
    rw [hgen, bne_self_eq_false, hvalid]
    decide
  rw [if_neg hc1] at hadd
  cases ht₀ : t₀.isInvalid with
  | true =>
      rcases hP with ⟨_, hPnil⟩ | ⟨hfls, _⟩
      swap
      · rw [ht₀] at hfls; cases hfls
      subst hPnil
      rw [if_pos ht₀] at hadd
      cases hidx : s.tableIdx (tableIdFromList (CompSet.types c)) with
      | some i =>
          rw [hidx] at hadd
          dsimp only at hadd
          simp only [Option.bind_eq_bind, Option.bind_eq_some] at hadd
          obtain ⟨tab, htab, tab', hpush, hs₁⟩ := hadd
          injection hs₁ with hs₁
          subst hs₁
          refine ⟨CompSet.types c, ?_, ?_, hcnd, hcsm, hcne, ?_⟩
          · show (s.entities.set e.id
              (gen, tableIdFromList (CompSet.types c)))[e.id]? = _
            rw [List.getElem?_set_self', hdir]
            rfl
          · intro t ht
            rcases List.mem_or_eq_of_mem_set ht with h | h
            · exact hWF t h
            · subst h
              obtain ⟨hid, hkinds⟩ := push_some_shape hpush
              have htWF := hWF tab (List.getElem?_mem htab)
              exact ⟨by rw [hid, hkinds]; exact htWF.1,
                hkinds ▸ htWF.2.1, hkinds ▸ htWF.2.2⟩
          · rw [filter_not_contains_self]
            exact List.Perm.nil
      | none =>
          rw [hidx] at hadd
          dsimp only at hadd
          simp only [Option.bind_eq_bind, Option.bind_eq_some] at hadd
          obtain ⟨tab', hpush, hs₁⟩ := hadd
          injection hs₁ with hs₁
          subst hs₁
          refine ⟨CompSet.types c, ?_, ?_, hcnd, hcsm, hcne, ?_⟩
          · show (s.entities.set e.id
              (gen, tableIdFromList (CompSet.types c)))[e.id]? = _
            rw [List.getElem?_set_self', hdir]
            rfl
          · intro t ht
            rcases List.mem_append.mp ht with h | h
            · exact hWF t h
            · rw [List.mem_singleton] at h
              subst h
              obtain ⟨hid, hkinds⟩ := push_some_shape hpush
              rw [table_new_kinds] at hkinds
              refine ⟨?_, hkinds ▸ hcnd, hkinds ▸ hcsm⟩
              rw [hid, hkinds]
              rfl
          · rw [filter_not_contains_self]
            exact List.Perm.nil
  | false =>
      rcases hP with ⟨htru, _⟩ | ⟨_, ci₀, cur₀, hci₀, hcur₀, hPk⟩
      · rw [ht₀] at htru; cases htru
      subst hPk
      rw [if_neg (by rw [ht₀]; decide)] at hadd
      simp only [Option.bind_eq_bind, Option.bind_eq_some] at hadd
      obtain ⟨ci, hci, cur, hcur, hbody⟩ := hadd
      have hcieq : ci = ci₀ := by
        rw [hci] at hci₀
        injection hci₀
      subst hcieq
      have hcureq : cur = cur₀ := by
        rw [hcur] at hcur₀
        injection hcur₀
      subst hcureq
      have hcurWF : TableWF cur := hWF cur (List.getElem?_mem hcur)
      have hcurid : cur.id = t₀ := tableIdx_id hci hcur
      cases hbeq : (t₀ == tableIdFromList (CompSet.types c)) with
      | true =>
          rw [hbeq, if_pos rfl] at hbody
          simp only [Option.bind_eq_bind, Option.bind_eq_some] at hbody
          obtain ⟨cur', hupd, hs₁⟩ := hbody
          injection hs₁ with hs₁
          subst hs₁
          have ht₀eq : t₀ = tableIdFromList (CompSet.types c) :=
            beq_iff_eq.mp hbeq
          have hperm : cur.kinds.Perm (CompSet.types c) :=
            kinds_perm_of_id_eq hcurWF hcnd hcsm (hcurid.trans ht₀eq)
          refine ⟨CompSet.types c, ?_, ?_, hcnd, hcsm, hcne, ?_⟩
          · show s.entities[e.id]? = _
            rw [hdir, ht₀eq]
          · intro t ht
            rcases List.mem_or_eq_of_mem_set ht with h | h
            · exact hWF t h
            · subst h
              obtain ⟨hid, _, hkinds⟩ := update_some_shape hupd
              exact ⟨by rw [hid, hkinds]; exact hcurWF.1,
                hkinds ▸ hcurWF.2.1, hkinds ▸ hcurWF.2.2⟩
          · rw [filter_not_contains_self]
            have hnil := hperm.filter
              (fun k => !(CompSet.types c).contains k)
            rw [filter_not_contains_self] at hnil
            rw [hnil.eq_nil]
      | false =>
          rw [hbeq, if_neg (by decide)] at hbody
          cases hca : cur.containsAll (CompSet.types c) with
          | true =>
              rw [hca, if_pos rfl] at hbody
              simp only [Option.bind_eq_bind, Option.bind_eq_some] at hbody
              obtain ⟨cur', hupd, hs₁⟩ := hbody
              injection hs₁ with hs₁
              subst hs₁
              have hkne : cur.kinds ≠ [] := by
                obtain ⟨k, ks, hc⟩ :
                    ∃ k ks, CompSet.types c = k :: ks := by
                  cases hcc : CompSet.types c with
                  | nil => exact absurd hcc hcne
                  | cons k ks => exact ⟨k, ks, rfl⟩
                have hkmem := containsAll_sub hca k (by rw [hc]; simp)
                intro hnil
                rw [hnil] at hkmem
                cases hkmem
              refine ⟨cur.kinds, ?_, ?_, hcurWF.2.1, hcurWF.2.2, hkne,
                List.Perm.refl _⟩
              · show s.entities[e.id]? = _
                rw [hdir, ← hcurid, hcurWF.1]
              · intro t ht
                rcases List.mem_or_eq_of_mem_set ht with h | h
                · exact hWF t h
                · subst h
                  obtain ⟨hid, _, hkinds⟩ := updatePartial_some_shape hupd
                  exact ⟨by rw [hid, hkinds]; exact hcurWF.1,
                    hkinds ▸ hcurWF.2.1, hkinds ▸ hcurWF.2.2⟩
          | false =>
              rw [hca, if_neg (by decide)] at hbody
              have hWFnew : TableWF
                  (((cur.getExtendable (tableIdFromList
                      (CompSet.types c ++ cur.kinds.filter
                        (fun k => !(CompSet.types c).contains k)))).extendRows
                    (CompSet.types c)).finish) := by
                constructor
                · rw [extend_finish_id, extend_finish_kinds hcnd]
                  exact tableIdFromList_perm (union_perm hcnd hcurWF.2.1)
                constructor
                · rw [extend_finish_kinds hcnd]
                  exact union_nodup hcurWF.2.1 hcnd
                · rw [extend_finish_kinds hcnd]
                  intro k hk
                  rcases List.mem_append.mp hk with h | h
                  · exact hcurWF.2.2 k h
                  · exact hcsm k (List.mem_filter.mp h).1
              have hune : (CompSet.types c ++ cur.kinds.filter
                  (fun k => !(CompSet.types c).contains k)) ≠ [] := by
                intro hnil
                exact hcne (List.append_eq_nil.mp hnil).1
              have hund : (CompSet.types c ++ cur.kinds.filter
                  (fun k => !(CompSet.types c).contains k)).Nodup :=
                union_nodup hcnd hcurWF.2.1
              have huns : ∀ k ∈ (CompSet.types c ++ cur.kinds.filter
                  (fun k => !(CompSet.types c).contains k)), k < 64 := by
                intro k hk
                rcases List.mem_append.mp hk with h | h
                · exact hcsm k h
                · exact hcurWF.2.2 k (List.mem_filter.mp h).1
              have hufilter :
                  ((CompSet.types c ++ cur.kinds.filter
                    (fun k => !(CompSet.types c).contains k)).filter
                      (fun k => !(CompSet.types c).contains k)).Perm
                    (cur.kinds.filter
                      (fun k => !(CompSet.types c).contains k)) := by
                rw [union_filter_left]
              cases hmt : s.tableIdx (tableIdFromList
                  (CompSet.types c ++ cur.kinds.filter
                    (fun k => !(CompSet.types c).contains k))) with
              | some j =>
                  rw [hmt] at hbody
                  dsimp only at hbody
                  split at hbody
                  · cases hbody
                  · simp only [Option.bind_eq_bind,
                      Option.bind_eq_some] at hbody
                    obtain ⟨curT, hcurT, tgtT, htgtT, x, hmove,
                      tgt2, hpmu, hs₁⟩ := hbody
                    obtain ⟨cur', tgt'⟩ := x
                    injection hs₁ with hs₁
                    subst hs₁
                    refine ⟨_, ?_, ?_, hund, huns, hune, hufilter⟩
                    · show (s.entities.set e.id _)[e.id]? = _
                      rw [List.getElem?_set_self', hdir]
                      rfl
                    · intro t ht
                      rcases List.mem_or_eq_of_mem_set ht with h | h
                      swap
                      · subst h
                        obtain ⟨hid2, _, hkinds2⟩ :=
                          pushMissingOrUpdate_some_shape hpmu
                        obtain ⟨_, _, hdid, hdkinds⟩ :=
                          moveEntityUp_some_shape hmove
                        have htWF := hWF tgtT (List.getElem?_mem htgtT)
                        refine ⟨?_, ?_, ?_⟩
                        · rw [hid2, hkinds2, hdid, hdkinds]
                          exact htWF.1
                        · rw [hkinds2, hdkinds]; exact htWF.2.1
                        · rw [hkinds2, hdkinds]; exact htWF.2.2
                      rcases List.mem_or_eq_of_mem_set h with h | h
                      · exact hWF t h
                      · subst h
                        obtain ⟨hsid, hskinds, _, _⟩ :=
                          moveEntityUp_some_shape hmove
                        have htWF := hWF curT (List.getElem?_mem hcurT)
                        exact ⟨by rw [hsid, hskinds]; exact htWF.1,
                          hskinds ▸ htWF.2.1, hskinds ▸ htWF.2.2⟩
              | none =>
                  rw [hmt] at hbody
                  dsimp only at hbody
                  split at hbody
                  · cases hbody
                  · simp only [Option.bind_eq_bind,
                      Option.bind_eq_some] at hbody
                    obtain ⟨curT, hcurT, tgtT, htgtT, x, hmove,
                      tgt2, hpmu, hs₁⟩ := hbody
                    obtain ⟨cur', tgt'⟩ := x
                    injection hs₁ with hs₁
                    subst hs₁
                    have hWF₁ : ∀ t ∈ s.tables
                        ++ [((cur.getExtendable (tableIdFromList
                          (CompSet.types c ++ cur.kinds.filter
                            (fun k => !(CompSet.types c).contains k)))).extendRows
                          (CompSet.types c)).finish], TableWF t := by
                      intro t ht
                      rcases List.mem_append.mp ht with h | h
                      · exact hWF t h
                      · rw [List.mem_singleton] at h
                        subst h
                        exact hWFnew
                    refine ⟨_, ?_, ?_, hund, huns, hune, hufilter⟩
                    · show (s.entities.set e.id _)[e.id]? = _
                      rw [List.getElem?_set_self', hdir]
                      rfl
                    · intro t ht
                      rcases List.mem_or_eq_of_mem_set ht with h | h
                      swap
                      · subst h
                        obtain ⟨hid2, _, hkinds2⟩ :=
                          pushMissingOrUpdate_some_shape hpmu
                        obtain ⟨_, _, hdid, hdkinds⟩ :=
                          moveEntityUp_some_shape hmove
                        have htWF := hWF₁ tgtT (List.getElem?_mem htgtT)
                        refine ⟨?_, ?_, ?_⟩
                        · rw [hid2, hkinds2, hdid, hdkinds]
                          exact htWF.1
                        · rw [hkinds2, hdkinds]; exact htWF.2.1
                        · rw [hkinds2, hdkinds]; exact htWF.2.2
                      rcases List.mem_or_eq_of_mem_set h with h | h
                      · exact hWF₁ t h
                      · subst h
                        obtain ⟨hsid, hskinds, _, _⟩ :=
                          moveEntityUp_some_shape hmove
                        have htWF := hWF₁ curT (List.getElem?_mem hcurT)
                        exact ⟨by rw [hsid, hskinds]; exact htWF.1,
                          hskinds ▸ htWF.2.1, hskinds ▸ htWF.2.2⟩

end Eonix

namespace Eonix

/-- C4 (corrected): for a live entity `e` whose pre-add kind list is `P`
(empty when the directory id is invalid, else the kinds of its table) and a
well-formed component set `c`, `add_components(e, c)` followed by
`remove_component::<c>(e)` leaves `e`'s directory id at the id of `P` minus
`c`'s kinds: the invalid id when `c` covers `P`, and otherwise the archetype
of exactly the kinds of `P` outside `c` — which is the pre-add archetype only
when `c` and `P` are disjoint. -/
theorem roundtrip_archetype_minus_removed {s s₁ s₂ : EntityComponents}
    {e : Entity} {c : CompSet} {gen : Generation} {t₀ : TableId} {P : List Nat}
    (hdir : s.entities[e.id]? = some (gen, t₀))
    (hgen : e.generation = gen) (hvalid : gen.isInvalid = false)
    (hWF : ∀ t ∈ s.tables, TableWF t)
    (hcne : CompSet.types c ≠ [])
    (hcnd : (CompSet.types c).Nodup)
    (hcsm : ∀ k ∈ CompSet.types c, k < 64)
    (hP : (t₀.isInvalid = true ∧ P = [])
        ∨ (t₀.isInvalid = false ∧ ∃ ci cur, s.tableIdx t₀ = some ci
            ∧ s.tables[ci]? = some cur ∧ P = cur.kinds))
    (hadd : s.addComponents e c = some s₁)
    (hrem : s₁.removeComponent e (CompSet.types c) = some s₂) :
    s₂.entities[e.id]? = some (gen,
      if (P.filter (fun k => !(CompSet.types c).contains k)).isEmpty
      then TableId.invalid
      else tableIdFromList
        (P.filter (fun k => !(CompSet.types c).contains k))) := by
  obtain ⟨L₁, hdir₁, hWF₁, hnd₁, hsm₁, hne₁, hfperm⟩ :=
    addComponents_dir hdir hgen hvalid hWF hcne hcnd hcsm hP hadd
  have hres := removeComponent_dir hdir₁ hgen hvalid hWF₁ hnd₁ hsm₁ hne₁ hrem
  rw [hres]
  have hids : (if (L₁.filter (fun k => !(CompSet.types c).contains k)).isEmpty
      then TableId.invalid
      else tableIdFromList (L₁.filter (fun k => !(CompSet.types c).contains k)))
      = (if (P.filter (fun k => !(CompSet.types c).contains k)).isEmpty
      then TableId.invalid
      else tableIdFromList
        (P.filter (fun k => !(CompSet.types c).contains k))) := by
    cases hLf : L₁.filter (fun k => !(CompSet.types c).contains k) with
    | nil =>
        have hPf : P.filter (fun k => !(CompSet.types c).contains k) = [] := by
          rw [hLf] at hfperm
          exact hfperm.symm.eq_nil
        rw [hPf]
    | cons a as =>
        obtain ⟨b, bs, hPf⟩ : ∃ b bs,
            P.filter (fun k => !(CompSet.types c).contains k) = b :: bs := by
          cases hh : P.filter (fun k => !(CompSet.types c).contains k) with
          | nil =>
              rw [hLf, hh] at hfperm
              exact absurd hfperm.length_eq (by simp)
          | cons b bs => exact ⟨b, bs, rfl⟩
        rw [hLf, hPf] at hfperm
        rw [hPf, if_neg (by simp), if_neg (by simp)]
        exact tableIdFromList_perm hfperm
  rw [hids]

/-- The state with one live entity `ent0` carrying kinds `0` and `1`. -/
def prePVal : EntityComponents :=
  ((EntityComponents.new.spawnEntity).1.addComponents ent0
    [(0, 10), (1, 20)]).getD EntityComponents.new

/-- `prePVal` after `add_components(ent0, {kind 1})`. -/
def roundAddVal : EntityComponents :=
  (prePVal.addComponents ent0 [(1, 30)]).getD EntityComponents.new

/-- `roundAddVal` after `remove_component::<kind 1>(ent0)`. -/
def roundRemVal : EntityComponents :=
  (roundAddVal.removeComponent ent0 [1]).getD EntityComponents.new

/-- C4: counterexample to the claimed dichotomy.  With pre-add kinds
`{0, 1}`, adding kind `1` again and then removing it lands `ent0` in the
archetype of kind set `{0}` — neither the pre-add archetype `{0, 1}` nor the
"has no components" state: removal strips overlapping kinds the add did not
introduce. -/
theorem roundtrip_leaves_partial_archetype :
    prePVal.addComponents ent0 [(1, 30)] = some roundAddVal
    ∧ roundAddVal.removeComponent ent0 [1] = some roundRemVal
    ∧ prePVal.entities[ent0.id]? = some (0, tableIdFromList [0, 1])
    ∧ roundRemVal.entities[ent0.id]? = some (0, tableIdFromList [0])
    ∧ tableIdFromList [0] ≠ tableIdFromList [0, 1]
    ∧ tableIdFromList [0] ≠ TableId.invalid := by
  refine ⟨?_, ?_, ?_, ?_, ?_, ?_⟩ <;> decide

/-- Witness for C4: the round-trip theorem applied to the concrete state
`prePVal` (kinds `{0, 1}`) with `c = {kind 1}`: the final directory id is
the id of the kind set `{0}`. -/
theorem roundtrip_archetype_minus_removed_witness :
    prePVal.entities[ent0.id]? = some (0, tableIdFromList [0, 1])
    ∧ roundRemVal.entities[ent0.id]? = some (0,
      if (([0, 1] : List Nat).filter
          (fun k => !(CompSet.types [(1, 30)]).contains k)).isEmpty
      then TableId.invalid
      else tableIdFromList (([0, 1] : List Nat).filter
          (fun k => !(CompSet.types [(1, 30)]).contains k))) :=
  ⟨by decide,
    @roundtrip_archetype_minus_removed prePVal roundAddVal roundRemVal
      ent0 [(1, 30)] 0 (tableIdFromList [0, 1]) [0, 1]
      (by decide) rfl (by decide) (by decide) (by decide)
      (by decide) (by decide)
      (Or.inr ⟨by decide, 0, prePVal.tables.getD 0 (Table.new []),
        by decide, by decide, by decide⟩)
      (by decide) (by decide)⟩

end Eonix

namespace Eonix

lemma eraseIdx_set {α} : ∀ (l : List α) (i : Nat) (a : α),
    (l.set i a).eraseIdx i = l.eraseIdx i := by
  intro l
  induction l with
  | nil => intro i a; rfl
  | cons x l ih =>
      intro i a
      cases i with
      | zero => rfl
      | succ i =>
          show x :: (l.set i a).eraseIdx i = x :: l.eraseIdx i
          rw [ih]

lemma swapRemoveAt_perm {α} : ∀ (l : List α) (i : Nat), i < l.length →
    (listSwapRemoveAt l i).Perm (l.eraseIdx i) := by
  intro l
  induction l with
  | nil => intro i h; cases h
  | cons x l ih =>
      intro i h
      cases i with
      | zero =>
          by_cases hlne : l = []
          · subst hlne
            rw [listSwapRemoveAt]
            simp
          · rw [listSwapRemoveAt]
            have hlast : (x :: l).getLast? = some (l.getLast hlne) := by
              rw [List.getLast?_eq_getLast (x :: l) (by simp),
                List.getLast_cons hlne]
            rw [hlast]
            show ((l.getLast hlne :: l).dropLast).Perm ((x :: l).eraseIdx 0)
            rw [List.dropLast_cons_of_ne_nil hlne]
            show (l.getLast hlne :: l.dropLast).Perm l
            calc (l.getLast hlne :: l.dropLast).Perm
                  (l.dropLast ++ [l.getLast hlne]) :=
                  (List.perm_append_singleton _ _).symm
              _ = l := List.dropLast_append_getLast hlne
      | succ i =>
          have hlne : l ≠ [] := by
            intro hnil
            rw [hnil] at h
            simp at h
          have hil : i < l.length := by simpa using h
          rw [listSwapRemoveAt]
          have hlast : (x :: l).getLast? = some (l.getLast hlne) := by
            rw [List.getLast?_eq_getLast (x :: l) (by simp),
              List.getLast_cons hlne]
          rw [hlast]
          show ((x :: l.set i (l.getLast hlne)).dropLast).Perm
            (x :: l.eraseIdx i)
          have hsetne : l.set i (l.getLast hlne) ≠ [] := by
            intro hnil
            have := congrArg List.length hnil
            rw [List.length_set] at this
            rw [List.length_eq_zero.mp this] at hlne
            exact hlne rfl
          rw [List.dropLast_cons_of_ne_nil hsetne]
          refine List.Perm.cons x ?_
          have := ih i hil
          rw [listSwapRemoveAt, List.getLast?_eq_getLast l hlne] at this
          exact this

lemma mapM_swapRemove_total :
    ∀ (rs : List Row), (∀ r ∈ rs, 0 < r.data.length) →
      ∃ rows', rs.mapM (fun r => r.swapRemove 0) = some rows' := by
  intro rs
  induction rs with
  | nil => intro _; exact ⟨[], rfl⟩
  | cons r rs ih =>
      intro hall
      obtain ⟨rest, hrest⟩ := ih (fun r hr => hall r (List.mem_cons_of_mem _ hr))
      refine ⟨⟨r.tid, listSwapRemoveAt r.data 0⟩ :: rest, ?_⟩
      rw [List.mapM_cons]
      have hsw : r.swapRemove 0
          = some ⟨r.tid, listSwapRemoveAt r.data 0⟩ := by
        rw [Row.swapRemove, if_pos (hall r (List.mem_cons_self _ _))]
      rw [hsw, hrest]
      rfl

/-- C8 (corrected, reap side): when `delete_entity` removes the last entity
of its table, the table is dropped from the table list (the list becomes a
permutation of the old list minus that table).  The side conditions make the
swap-removals total and route around the directory-index bug of C3. -/
theorem delete_entity_reaps_emptied_table {s : EntityComponents} {e : Entity}
    {gen : Generation} {t₀ : TableId} {i : Nat} {tab : Table}
    (hdir : s.entities[e.id]? = some (gen, t₀))
    (hgen : e.generation = gen) (hvalid : e.generation.isInvalid = false)
    (hti : s.tableIdx t₀ = some i)
    (htab : s.tables[i]? = some tab)
    (hone : tab.entities = [e])
    (hrows : ∀ r ∈ tab.rows, r.data.length = 1)
    (hilt : i < s.entities.length) :
    ∃ s', s.deleteEntity e = some s'
      ∧ s'.tables.Perm (s.tables.eraseIdx i) := by
  have hpos : tab.entityPos e = some 0 := by
    rw [Table.entityPos, hone, List.findIdx?_cons]
    simp
  obtain ⟨rows', hmapm⟩ :=
    mapM_swapRemove_total tab.rows (fun r hr => by rw [hrows r hr]; omega)
  have hdel : tab.deleteEntity e = some ⟨tab.id, rows', []⟩ := by
    rw [Table.deleteEntity, hpos]
    simp only [Option.bind_eq_bind, Option.some_bind, hmapm]
    rw [if_pos (by rw [hone]; simp)]
    have hempty : (listSwapRemoveAt tab.entities 0) = ([] : List Entity) := by
      rw [hone, listSwapRemoveAt]
      simp
    rw [hempty]
  have heq : s.deleteEntity e = some
      ⟨listSwapRemoveAt (s.tables.set i (⟨tab.id, rows', []⟩ : Table)) i,
        s.entities.set i
          ((s.entities.getD i (Generation.invalid, TableId.invalid)).1,
            TableId.invalid),
        s.spawner.free e⟩ := by
    rw [EntityComponents.deleteEntity, hdir]
    dsimp only
    rw [if_neg (by rw [hgen] at hvalid; rw [hgen, hvalid, bne_self_eq_false]; decide)]
    simp only [Option.bind_eq_bind, hti, Option.some_bind, htab, hdel]
    rw [if_pos hilt]
    rw [if_pos (show Table.isEmpty ⟨tab.id, rows', []⟩ = true from rfl)]
  refine ⟨_, heq, ?_⟩
  show (listSwapRemoveAt (s.tables.set i (⟨tab.id, rows', []⟩ : Table)) i).Perm _
  have hitlt : i < s.tables.length := (List.getElem?_eq_some.mp htab).1
  have hperm := swapRemoveAt_perm
    (s.tables.set i (⟨tab.id, rows', []⟩ : Table)) i
    (by rw [List.length_set]; exact hitlt)
  rw [eraseIdx_set] at hperm
  exact hperm

/-- The state with one live entity `ent0` carrying kind `0` in one table. -/
def delPreVal : EntityComponents :=
  ((EntityComponents.new.spawnEntity).1.addComponents ent0
    [(0, 5)]).getD EntityComponents.new

/-- Witness for C8: the reap theorem applied to the concrete one-table state
`delPreVal`, whose only table holds only `ent0`: deleting `ent0` leaves a
table list that is a permutation of the old list minus that table. -/
theorem delete_entity_reaps_emptied_table_witness :
    (delPreVal.tables.getD 0 (Table.new [])).entities = [ent0]
    ∧ ∃ s', delPreVal.deleteEntity ent0 = some s'
      ∧ s'.tables.Perm (delPreVal.tables.eraseIdx 0) :=
  ⟨by decide, @delete_entity_reaps_emptied_table delPreVal ent0
    0 (tableIdFromList [0]) 0 (delPreVal.tables.getD 0 (Table.new []))
    (by decide) rfl (by decide) (by decide) (by decide) (by decide)
    (by decide) (by decide)⟩

end Eonix
